import Mathlib

/-!
Shallow embedding of the clusterflick generate-spotlights content-formatting
engine (venue aggregator, collage layout generator, social post composer and
thread chunker), translated from the JavaScript sources, together with proofs
about the properties claimed in the specification.

Strings are modelled as lists of Unicode scalar characters; where the code
measures string length, the model uses the UTF-16 code-unit count jsLen,
matching the semantics of the JavaScript length property (astral-plane
characters such as the emoji used by the composer count as two units).
-/

set_option maxRecDepth 8000

abbrev JStr := List Char

/-- Whitespace test used by the model of the JavaScript trim method
(restricted to the whitespace characters that occur in the generated text). -/
def isWsChar (c : Char) : Bool :=
  c == ' ' || c == '\n' || c == '\t' || c == '\r'

/-- Model of the JavaScript trim method: drop whitespace from both ends. -/
def jsTrim (s : JStr) : JStr :=
  ((s.dropWhile isWsChar).reverse.dropWhile isWsChar).reverse

/-- UTF-16 code-unit count of one character (JavaScript length semantics). -/
def utf16Len (c : Char) : Nat :=
  if c.toNat < 65536 then 1 else 2

/-- Model of the JavaScript string length property: UTF-16 code units. -/
def jsLen (s : JStr) : Nat :=
  (s.map utf16Len).sum

/-- Decimal digit character for a value below ten. -/
def digitCh (n : Nat) : Char :=
  Char.ofNat (48 + n % 10)

/-- Accumulator-based decimal rendering of a natural number; the fuel
argument only bounds the recursion depth and any fuel at least the value
itself is enough. -/
def natToStrAux : Nat → Nat → JStr → JStr
  | 0, n, acc => digitCh n :: acc
  | Nat.succ f, n, acc =>
    if n < 10 then digitCh n :: acc
    else natToStrAux f (n / 10) (digitCh n :: acc)

/-- Decimal rendering of a natural number, as produced by JavaScript string
interpolation of a non-negative integer. -/
def natToStr (n : Nat) : JStr :=
  natToStrAux n n []

/-- Split a string at every occurrence of a single separator character,
the model of the JavaScript split method with a one-character separator. -/
def splitCh (c : Char) : JStr → List JStr
  | [] => [[]]
  | x :: xs =>
    if x = c then [] :: splitCh c xs
    else
      match splitCh c xs with
      | [] => [[x]]
      | p :: ps => (x :: p) :: ps

/-- Worker for splitting at a multi-character separator: scans the string,
emitting the accumulated part whenever the separator occurs as a prefix.
The fuel argument only bounds the recursion depth; any fuel above the
string length is enough. -/
def splitSeqAux (c0 : Char) (cs : JStr) : Nat → JStr → JStr → List JStr
  | _, [], acc => [acc.reverse]
  | 0, x :: xs, acc => [acc.reverse ++ x :: xs]
  | Nat.succ f, x :: xs, acc =>
    if (c0 :: cs).isPrefixOf (x :: xs) then
      acc.reverse :: splitSeqAux c0 cs f (List.drop cs.length xs) []
    else
      splitSeqAux c0 cs f xs (x :: acc)

/-- Model of the JavaScript split method with a string separator
(non-overlapping, left to right).  An empty separator is never used by the
code; for totality it yields the whole string. -/
def splitSeq (sep : JStr) (s : JStr) : List JStr :=
  match sep with
  | [] => [s]
  | c :: cs => splitSeqAux c cs s.length s []

/-- Worker replacing the first occurrence of a pattern. -/
def replaceFirstAux (c0 : Char) (cs rep : JStr) : JStr → JStr
  | [] => []
  | x :: xs =>
    if (c0 :: cs).isPrefixOf (x :: xs) then rep ++ List.drop cs.length xs
    else x :: replaceFirstAux c0 cs rep xs

/-- Model of the JavaScript replace method with a string pattern: replaces
only the first occurrence, returning the input unchanged when absent. -/
def replaceFirst (pat rep s : JStr) : JStr :=
  match pat with
  | [] => rep ++ s
  | c :: cs => replaceFirstAux c cs rep s

/-- Insertion step of the sort used to model the JavaScript sort method. -/
def insertLe (le : α → α → Bool) (x : α) : List α → List α
  | [] => [x]
  | y :: ys => if le x y then x :: y :: ys else y :: insertLe le x ys

/-- Comparator-based sort modelling the JavaScript sort method.  The
comparators used by the code are all total preorders, so any comparison sort
produces the same result up to the order of ties, which none of the proved
statements depend on. -/
def jsSortBy (le : α → α → Bool) : List α → List α
  | [] => []
  | x :: xs => insertLe le x (jsSortBy le xs)

/-- Worker of the first-occurrence deduplication, carrying the keys already
seen (mirroring the existence check of the JavaScript object
accumulation). -/
def dedupFAux [DecidableEq α] : List α → List α → List α
  | [], _ => []
  | x :: xs, seen =>
    if x ∈ seen then dedupFAux xs seen
    else x :: dedupFAux xs (x :: seen)

/-- First-occurrence deduplication, the model of the key order of a
JavaScript object built by insertion (string keys iterate in insertion
order; the generated venue keys are not array-index-like). -/
def dedupF [DecidableEq α] (l : List α) : List α :=
  dedupFAux l []

/-- Model of the JavaScript slice method from index zero with a possibly
negative end index (a negative end counts from the end of the array). -/
def jsSlice0 (xs : List α) (e : Int) : List α :=
  if e < 0 then xs.take (xs.length - (-e).toNat) else xs.take e.toNat

/-- Code-point lexicographic string order, the model of the localeCompare
comparator for the venue and title names handled by the code. -/
def strLeb : JStr → JStr → Bool
  | [], _ => true
  | _ :: _, [] => false
  | a :: as, b :: bs => if a = b then strLeb as bs else decide (a < b)

/-- Join a list of strings with a separator (JavaScript join). -/
def joinSep (sep : JStr) (xs : List JStr) : JStr :=
  List.intercalate sep xs

/-- Concatenation of a list of strings. -/
def joinStr (xs : List JStr) : JStr :=
  xs.flatten

/-- The lines of a string that are non-blank after trimming, each trimmed.
This is the whitespace-insensitive content view used to state what the
thread chunker preserves. -/
def trimmedLines (s : JStr) : List JStr :=
  ((splitCh '\n' s).map jsTrim).filter (fun l => decide (l ≠ []))

/-! ## Venue aggregator (generate-single-movie.js)

Translation of the venue display-item construction: the venue table lookup
with silent dropping of missing entries, the grouping applied when more than
seven venues remain, the final sort by display text, the truncation with the
synthetic more item, and the plain-text and HTML renderings. -/

/-- A venue record: display name, optional chain label, and the per-platform
social handle table. -/
structure Venue where
  name : JStr
  groupName : Option JStr
  socials : JStr → Option JStr

/-- A rendered venue-list entry together with the number of real venues it
represents. -/
structure DisplayItem where
  text : JStr
  venueCount : Nat
deriving DecidableEq

/-- Venue data for a list of venue ids: each id is looked up in the venue
table and ids absent from the table are silently dropped, as in the
Array.from map filter Boolean pipeline of the code. -/
def venueDataOf (table : JStr → Option Venue) (ids : List JStr) : List Venue :=
  ids.filterMap table

/-- Maximum number of display items before grouping and truncation apply. -/
def MAX_DISPLAY_ITEMS : Nat := 7

/-- The effective group key of a venue: its groupName when present and
non-empty (JavaScript truthiness makes an empty group name ungrouped). -/
def venueGroupKey (v : Venue) : Option JStr :=
  match v.groupName with
  | some g => if g = [] then none else some g
  | none => none

/-- Pluralization used for collapsed groups: append s unless the group name
already ends in s. -/
def pluralize (g : JStr) : JStr :=
  if g.getLast? = some 's' then g else g ++ ['s']

/-- The grouped venues as an association list from group key to the names of
its venues, in first-occurrence key order.  This models the JavaScript
object accumulation: string keys iterate in insertion order, and the values
collect venue names in input order. -/
def groupedPairs (venues : List Venue) : List (JStr × List JStr) :=
  (dedupF (venues.filterMap venueGroupKey)).map
    (fun g => (g, (venues.filter (fun v => decide (venueGroupKey v = some g))).map Venue.name))

/-- Names of the venues without an effective group, in input order. -/
def ungroupedNames (venues : List Venue) : List JStr :=
  (venues.filter (fun v => decide (venueGroupKey v = none))).map Venue.name

/-- The display item produced from one group: a singleton group keeps the
bare venue name, a larger group collapses to a pluralized count entry whose
venueCount is the group size. -/
def groupItem (p : JStr × List JStr) : DisplayItem :=
  if p.2.length = 1 then ⟨p.2.headD [], 1⟩
  else ⟨natToStr p.2.length ++ [' '] ++ pluralize p.1, p.2.length⟩

/-- The display items before the final sort: one item per venue when at most
seven venues, otherwise collapsed groups (ordered by group name) followed by
the ungrouped venues (ordered by name). -/
def rawDisplayItems (venues : List Venue) : List DisplayItem :=
  if venues.length ≤ MAX_DISPLAY_ITEMS then
    venues.map (fun v => ⟨v.name, 1⟩)
  else
    (jsSortBy (fun a b => strLeb a.1 b.1) (groupedPairs venues)).map groupItem
      ++ (jsSortBy strLeb (ungroupedNames venues)).map (fun n => ⟨n, 1⟩)

/-- The display items after the final authoritative sort by display text. -/
def displayItems (venues : List Venue) : List DisplayItem :=
  jsSortBy (fun a b => strLeb a.text b.text) (rawDisplayItems venues)

/-- Sum of the venueCount fields of a display-item list. -/
def sumCounts (items : List DisplayItem) : Nat :=
  (items.map DisplayItem.venueCount).sum

/-- Sum of the venueCount of the items dropped by truncation; zero when no
truncation happens. -/
def moreVenueCount (venues : List Venue) : Nat :=
  if MAX_DISPLAY_ITEMS < (displayItems venues).length then
    sumCounts ((displayItems venues).drop (MAX_DISPLAY_ITEMS - 1))
  else 0

/-- The display items kept verbatim after truncation: the first six when the
list exceeds seven, otherwise the full list. -/
def finalItems (venues : List Venue) : List DisplayItem :=
  if MAX_DISPLAY_ITEMS < (displayItems venues).length then
    (displayItems venues).take (MAX_DISPLAY_ITEMS - 1)
  else displayItems venues

/-- Text of the synthetic truncation item. -/
def moreText (n : Nat) : JStr :=
  natToStr n ++ (" more").data

/-- The display-item list as finally rendered: the kept items plus the
synthetic more item carrying the dropped venue count when truncation
happened. -/
def finalDisplayItems (venues : List Venue) : List DisplayItem :=
  if MAX_DISPLAY_ITEMS < (displayItems venues).length then
    finalItems venues ++ [⟨moreText (moreVenueCount venues), moreVenueCount venues⟩]
  else displayItems venues

/-- HTML escaping from the shared utilities: the chained global replaces of
the five special characters are equivalent to this per-character mapping,
because the ampersand pass runs first and later passes introduce no
character that an earlier pass rewrites. -/
def escapeHtml (s : JStr) : JStr :=
  s.flatMap (fun c =>
    if c = '&' then ("&amp;").data
    else if c = '<' then ("&lt;").data
    else if c = '>' then ("&gt;").data
    else if c = '"' then ("&quot;").data
    else if c = '\'' then ("&#039;").data
    else [c])

/-- Styling wrapper for one venue name in the HTML rendering. -/
def wrapVenue (name : JStr) : JStr :=
  ("<span class=\"venue-name\">").data ++ escapeHtml name ++ ("</span>").data

/-- Plain-text rendering of a display-item list with a possible truncation
count, translated from the venuesPlainText construction: truncated lists are
comma-joined with a more entry, otherwise one, two, or three-plus items use
the documented joiner forms, and an empty list renders as the empty
string. -/
def renderPlainItems (items : List DisplayItem) (more : Nat) : JStr :=
  if 0 < more then
    joinSep (", ").data (items.map DisplayItem.text)
      ++ (", & ").data ++ moreText more
  else if items.length = 1 then (items.headD ⟨[], 0⟩).text
  else if items.length = 2 then
    (items.headD ⟨[], 0⟩).text ++ (" & ").data ++ ((items.drop 1).headD ⟨[], 0⟩).text
  else if 2 < items.length then
    joinSep (", ").data (items.dropLast.map DisplayItem.text)
      ++ (", & ").data ++ (items.getLastD ⟨[], 0⟩).text
  else []

/-- HTML rendering of a display-item list with a possible truncation count,
translated from the venuesText construction; each name passes through
wrapVenue. -/
def renderHtmlItems (items : List DisplayItem) (more : Nat) : JStr :=
  if 0 < more then
    joinSep (", ").data (items.map (fun i => wrapVenue i.text))
      ++ (", & ").data ++ wrapVenue (moreText more)
  else if items.length = 1 then wrapVenue (items.headD ⟨[], 0⟩).text
  else if items.length = 2 then
    wrapVenue (items.headD ⟨[], 0⟩).text ++ (" & ").data
      ++ wrapVenue ((items.drop 1).headD ⟨[], 0⟩).text
  else if 2 < items.length then
    joinSep (", ").data (items.dropLast.map (fun i => wrapVenue i.text))
      ++ (", & ").data ++ wrapVenue ((items.getLastD ⟨[], 0⟩).text)
  else []

/-- The venues phrase of the spotlight, plain-text variant. -/
def venuesPlainText (venues : List Venue) : JStr :=
  renderPlainItems (finalItems venues) (moreVenueCount venues)

/-- The venues phrase of the spotlight, HTML variant. -/
def venuesHtmlText (venues : List Venue) : JStr :=
  renderHtmlItems (finalItems venues) (moreVenueCount venues)

/-! ## Social post composer (lib/social-text.js)

Translation of generateSocialText (the exported full-format composer),
generateInstagramCompactText, and chunkForTwitterThread.  The ambient
Math.random emoji draws are modelled by an explicit stream parameter; the
bounded character arithmetic uses jsLen.  Numeric movie ratings are rational
numbers; their display uses the one-decimal rendering matching the IMDB
style ratings handled by the code (the proved properties do not depend on
the digits chosen). -/

/-- Newline character. -/
def lfCh : Char := '\n'

/-- The clapper-board emoji (astral plane, two UTF-16 units). -/
def clapperCh : Char := Char.ofNat 127916

/-- The movie-camera emoji. -/
def movieCamCh : Char := Char.ofNat 127909

/-- The film-projector emoji. -/
def projectorCh : Char := Char.ofNat 128253

/-- The sparkles emoji. -/
def sparklesCh : Char := Char.ofNat 10024

/-- The star emoji. -/
def starCh : Char := Char.ofNat 11088

/-- The popcorn emoji. -/
def popcornCh : Char := Char.ofNat 127871

/-- The admission-ticket emoji. -/
def ticketCh : Char := Char.ofNat 127903

/-- The globe emoji. -/
def globeCh : Char := Char.ofNat 127760

/-- The round-pushpin emoji starting each venue block. -/
def pinCh : Char := Char.ofNat 128205

/-- The emoji pool drawn from for full-format movie lines. -/
def emojis : List JStr :=
  [[clapperCh], [movieCamCh], [projectorCh], [sparklesCh], [starCh], [popcornCh]]

/-- One draw from the emoji pool, indexing the injected stream: the model of
Math.floor of Math.random times the pool size. -/
def emojiAt (es : Nat → Nat) (k : Nat) : JStr :=
  emojis.getD (es k % emojis.length) []

/-- A movie as consumed by the composer: title, optional numeric rating, and
the venue id stored in the configured venue id field. -/
structure Movie where
  title : JStr
  rating : Option ℚ
  venueId : Option JStr

/-- JavaScript truthiness of the rating field: present and non-zero. -/
def ratingTruthy (m : Movie) : Bool :=
  match m.rating with
  | some r => decide (r ≠ 0)
  | none => false

/-- Rating value used for ordering, zero when absent. -/
def ratingVal (m : Movie) : ℚ :=
  m.rating.getD 0

/-- One-decimal display of a rating (integer part, and a fractional digit
when the value is not an integer). -/
def ratToStr (q : ℚ) : JStr :=
  if q.den = 1 then natToStr q.num.toNat
  else natToStr (q.num.toNat / q.den) ++ ['.'] ++ natToStr (q.num.toNat * 10 / q.den % 10)

/-- The bucket key of a movie: the venue id field when truthy, otherwise the
literal unknown key. -/
def venueKey (m : Movie) : JStr :=
  match m.venueId with
  | some v => if v = [] then ("unknown").data else v
  | none => ("unknown").data

/-- Placeholder name for a venue id absent from the venue table. -/
def unknownVenue : JStr := ("Unknown venue").data

/-- The display name of a bucket: the venue name from the table, or the
placeholder when the lookup misses or the name is empty (JavaScript
truthiness of the or-default). -/
def venueNameOf (venues : JStr → Option Venue) (vid : JStr) : JStr :=
  match venues vid with
  | some v => if v.name = [] then unknownVenue else v.name
  | none => unknownVenue

/-- Configuration of the full-format composer.  The platform field models
the JavaScript value directly (none models null); the venue id field of the
configuration is modelled by the venueId field of Movie. -/
structure SocialConfig where
  platform : Option JStr
  header : JStr
  intro : JStr
  hashtags : JStr
  footer : JStr
  formatMovieLine : Option (Movie → Bool → JStr)
  maxLength : Option Nat

/-- The literal count placeholder of the intro template. -/
def countToken : JStr := ("\x7b\x7bcount\x7d\x7d").data

/-- The compact-intro pattern replaced to drop the leading word. -/
def theseCountToken : JStr := ("These \x7b\x7bcount\x7d\x7d").data

/-- Platform character limits table: only instagram has one. -/
def PLATFORM_LIMIT (p : JStr) : Option Nat :=
  if p = ("instagram").data then some 2000 else none

/-- The character limit of a configuration: explicit maxLength first, then
the platform default, then none. -/
def charLimitOf (cfg : SocialConfig) : Option Nat :=
  match cfg.maxLength with
  | some n => some n
  | none =>
    match cfg.platform with
    | some p => PLATFORM_LIMIT p
    | none => none

/-- Whether compact line formatting applies (instagram or twitter). -/
def compactOf (cfg : SocialConfig) : Bool :=
  cfg.platform = some (("instagram").data) || cfg.platform = some (("twitter").data)

/-- The fixed promotional line of the header block. -/
def promoLine : JStr :=
  globeCh :: (" Every film, every cinema, one place. Find showtimes at Clusterflick.com").data

/-- The section separator written between the blocks of the full text. -/
def dashesSep : JStr := ("---").data ++ [lfCh, lfCh]

/-- The header block: emoji-wrapped header, intro with the count substituted,
the promotional line, and a separator. -/
def headerSection (cfg : SocialConfig) (count : Nat) : JStr :=
  clapperCh :: ' ' :: cfg.header ++ [' ', clapperCh, lfCh, lfCh]
    ++ replaceFirst countToken (natToStr count) cfg.intro
    ++ [' ', ticketCh, popcornCh, lfCh, lfCh]
    ++ promoLine ++ [lfCh, lfCh] ++ dashesSep

/-- The footer block: separator, hashtags, footer text. -/
def footerSection (cfg : SocialConfig) : JStr :=
  dashesSep ++ cfg.hashtags ++ [lfCh, lfCh] ++ cfg.footer

/-- Rating suffix of a movie line. -/
def ratingText (m : Movie) : JStr :=
  match m.rating with
  | some r => (" (").data ++ ratToStr r ++ (" IMDB)").data
  | none => []

/-- The default movie line formatter: bare title and rating in compact mode,
an indented random emoji line otherwise. -/
def defaultFormatLine (emoji : JStr) (m : Movie) (compact : Bool) : JStr :=
  if compact then m.title ++ ratingText m ++ [lfCh]
  else ("   ").data ++ emoji ++ [' '] ++ m.title ++ ratingText m ++ [lfCh]

/-- The movie line formatter in effect: the configured one, or the default
fed from the emoji stream at the given line index. -/
def movieLineOf (cfg : SocialConfig) (es : Nat → Nat) (k : Nat) (m : Movie)
    (compact : Bool) : JStr :=
  match cfg.formatMovieLine with
  | some f => f m compact
  | none => defaultFormatLine (emojiAt es k) m compact

/-- The social handle of a venue for the configured platform. -/
def handleOf (venues : JStr → Option Venue) (cfg : SocialConfig) (vid : JStr) :
    Option JStr :=
  (venues vid).bind (fun v => cfg.platform.bind v.socials)

/-- The handle suffix of a venue heading: at-handle in compact mode,
parenthesized in full mode, empty when there is no handle. -/
def handleTextOf (venues : JStr → Option Venue) (cfg : SocialConfig) (vid : JStr)
    (compact : Bool) : JStr :=
  match handleOf venues cfg vid with
  | some h =>
    if compact then (" @").data ++ h
    else (" (@").data ++ h ++ (")").data
  | none => []

/-- The movies of one bucket, sorted by title. -/
def bucketMovies (movies : List Movie) (vid : JStr) : List Movie :=
  jsSortBy (fun a b => strLeb a.title b.title) (movies.filter (fun m => decide (venueKey m = vid)))

/-- One venue block: pin heading with name and optional handle, then one
line per movie of the bucket, then a blank line.  The parameter k is the
index of the first movie line inside the emoji stream. -/
def venueSectionOf (venues : JStr → Option Venue) (cfg : SocialConfig)
    (es : Nat → Nat) (k : Nat) (vid : JStr) (ms : List Movie) : JStr :=
  pinCh :: ' ' :: venueNameOf venues vid
    ++ handleTextOf venues cfg vid (compactOf cfg) ++ [lfCh]
    ++ joinStr (ms.enum.map (fun p => movieLineOf cfg es (k + p.1) p.2 (compactOf cfg)))
    ++ [lfCh]

/-- The bucket keys in the order the composer renders them: deduplicated in
first-occurrence order, then sorted by resolved venue name. -/
def sortedVenueIds (movies : List Movie) (venues : JStr → Option Venue) : List JStr :=
  jsSortBy (fun a b => strLeb (venueNameOf venues a) (venueNameOf venues b))
    (dedupF (movies.map venueKey))

/-- All venue blocks with the emoji stream threaded through by movie-line
position. -/
def venueSectionsOf (movies : List Movie) (venues : JStr → Option Venue)
    (cfg : SocialConfig) (es : Nat → Nat) : List JStr :=
  ((sortedVenueIds movies venues).foldl
    (fun acc vid =>
      let ms := bucketMovies movies vid
      (acc.1 ++ [venueSectionOf venues cfg es acc.2 vid ms], acc.2 + ms.length))
    ([], 0)).1

/-- The truncation marker inserted when venue blocks are dropped. -/
def moreIndicator : JStr :=
  lfCh :: ("+more at clusterflick.com").data ++ [lfCh]

/-- Greedy packing of venue blocks under the character limit: blocks are
appended while header, accumulated content, candidate block, and footer fit
together; the first overflowing block stops the loop with the flag
cleared. -/
def fitSections (hs fs : JStr) (limit : Nat) : List JStr → JStr → JStr × Bool
  | [], acc => (acc, true)
  | s :: rest, acc =>
    if jsLen hs + jsLen acc + jsLen s + jsLen fs ≤ limit then
      fitSections hs fs limit rest (acc ++ s)
    else (acc, false)

/-- The exported full-format composer generateSocialText: header block,
venue blocks (greedily truncated under a character limit when one applies,
with the more indicator on truncation), footer block. -/
def generateSocialText (es : Nat → Nat) (movies : List Movie)
    (venues : JStr → Option Venue) (cfg : SocialConfig) : JStr :=
  let hs := headerSection cfg movies.length
  let fs := footerSection cfg
  let sections := venueSectionsOf movies venues cfg es
  match charLimitOf cfg with
  | none => hs ++ joinStr sections ++ fs
  | some limit =>
    let fitted := fitSections hs fs limit sections []
    if fitted.2 then hs ++ fitted.1 ++ fs
    else hs ++ fitted.1 ++ moreIndicator ++ fs

/-- The instagram platform key. -/
def instaStr : JStr := ("instagram").data

/-- Configuration of the compact instagram composer (the venue id field is
modelled by the venueId field of Movie; the JavaScript defaults are fifteen
top picks and a two-film venue threshold). -/
structure CompactConfig where
  header : JStr
  intro : JStr
  hashtags : JStr
  footer : JStr
  topPicksCount : Int
  minFilmsPerVenue : Nat

/-- Resolved display name of an optional venue, with JavaScript truthiness:
a missing venue or an empty name yields the placeholder. -/
def jsVenueName (v : Option Venue) : JStr :=
  match v with
  | some v => if v.name = [] then unknownVenue else v.name
  | none => unknownVenue

/-- Direct venue-table lookup through the raw venue id field of a movie (the
top-picks lines do not apply the unknown-key defaulting). -/
def rawVenueOf (venues : JStr → Option Venue) (m : Movie) : Option Venue :=
  match m.venueId with
  | some vid => venues vid
  | none => none

/-- The rated movies sorted by descending rating and cut to the top-picks
count through the slice semantics (a negative count drops from the end). -/
def topPicksOf (movies : List Movie) (tpc : Int) : List Movie :=
  jsSlice0 (jsSortBy (fun a b => decide (ratingVal b ≤ ratingVal a)) (movies.filter ratingTruthy)) tpc

/-- One entry of the per-venue film-count list. -/
structure CompactVenue where
  vid : JStr
  venue : Option Venue
  count : Nat

/-- The venue film-count list sorted by descending count. -/
def compactVenueList (movies : List Movie) (venues : JStr → Option Venue) :
    List CompactVenue :=
  jsSortBy (fun a b => decide (b.count ≤ a.count))
    ((dedupF (movies.map venueKey)).map
      (fun vid => ⟨vid, venues vid, (movies.filter (fun m => decide (venueKey m = vid))).length⟩))

/-- The top-picks section body: one title-at-venue line per pick. -/
def topPicksBlock (movies : List Movie) (venues : JStr → Option Venue)
    (tpc : Int) : JStr :=
  joinStr ((topPicksOf movies tpc).map
    (fun m => m.title ++ (" @ ").data ++ jsVenueName (rawVenueOf venues m) ++ [lfCh]))

/-- The venues section body: venues meeting the film-count threshold with
their instagram handle and count, then the summary line for the rest. -/
def venuesBlock (movies : List Movie) (venues : JStr → Option Venue)
    (minF : Nat) : JStr :=
  let vl := compactVenueList movies venues
  let multi := vl.filter (fun v => decide (minF ≤ v.count))
  let single := (vl.filter (fun v => decide (v.count < minF))).length
  joinStr (multi.map (fun v =>
    jsVenueName v.venue
      ++ (match v.venue.bind (fun x => x.socials instaStr) with
          | some h => (" @").data ++ h
          | none => [])
      ++ (" - ").data ++ natToStr v.count ++ (" films").data ++ [lfCh]))
    ++ (if 0 < single then
          '+' :: natToStr single ++ (" more venues with 1 film each").data ++ [lfCh]
        else [])

/-- The compact intro: the leading word of the These-count template is
dropped, then the count is substituted. -/
def compactIntroOf (intro : JStr) (count : Nat) : JStr :=
  replaceFirst countToken (natToStr count) (replaceFirst theseCountToken countToken intro)

/-- One rendering pass of the compact instagram composer at a fixed
top-picks count. -/
def compactOutput (movies : List Movie) (venues : JStr → Option Venue)
    (cfg : CompactConfig) : JStr :=
  clapperCh :: ' ' :: cfg.header ++ [' ', clapperCh, lfCh, lfCh]
    ++ compactIntroOf cfg.intro movies.length ++ [' ', ticketCh, popcornCh, lfCh, lfCh]
    ++ promoLine ++ [lfCh, lfCh] ++ dashesSep
    ++ clapperCh :: (" TOP PICKS").data ++ [lfCh]
    ++ topPicksBlock movies venues cfg.topPicksCount
    ++ lfCh :: pinCh :: (" VENUES").data ++ [lfCh]
    ++ venuesBlock movies venues cfg.minFilmsPerVenue
    ++ [lfCh] ++ dashesSep ++ cfg.hashtags ++ [lfCh, lfCh] ++ cfg.footer

/-- The compact instagram composer: render, and when the output exceeds the
2000-character instagram limit, retry with the top-picks count reduced by
two.  The JavaScript recursion has no base case besides fitting; the fuel
argument models the call stack, with none meaning the recursion is still
running after that many calls. -/
def generateInstagramCompactText (fuel : Nat) (movies : List Movie)
    (venues : JStr → Option Venue) (cfg : CompactConfig) : Option JStr :=
  match fuel with
  | 0 => none
  | Nat.succ f =>
    let output := compactOutput movies venues cfg
    if 2000 < jsLen output then
      generateInstagramCompactText f movies venues
        { cfg with topPicksCount := cfg.topPicksCount - 2 }
    else some output

/-! ## Thread chunker (chunkForTwitterThread) -/

/-- The section separator the chunker splits the full text at. -/
def threadSep : JStr := ("---").data ++ [lfCh, lfCh]

/-- The header part of the input: text before the first separator,
trimmed. -/
def headerOf (text : JStr) : JStr :=
  jsTrim ((splitSeq threadSep text).headD [])

/-- The venue-content part of the input: between the first and second
separators (empty when absent). -/
def venuesContentOf (text : JStr) : JStr :=
  (splitSeq threadSep text).getD 1 []

/-- The footer part of the input: everything after the second separator,
re-joined and trimmed. -/
def footerOf (text : JStr) : JStr :=
  jsTrim (List.intercalate threadSep ((splitSeq threadSep text).drop 2))

/-- Whether a line starts a new venue block. -/
def pinLine (l : JStr) : Bool :=
  match l with
  | c :: _ => c = pinCh
  | [] => false

/-- One step of the venue-block parse: a pin line with content accumulated
flushes the current block, otherwise the line joins the current block. -/
def blockStep (acc : List JStr × JStr) (line : JStr) : List JStr × JStr :=
  if pinLine line && !(jsTrim acc.2).isEmpty then
    (acc.1 ++ [jsTrim acc.2], line ++ [lfCh])
  else (acc.1, acc.2 ++ line ++ [lfCh])

/-- Final flush shared by the block parse and the chunk packing: the pending
accumulator is trimmed and appended when non-blank. -/
def chunkFlush (r : List JStr × JStr) : List JStr :=
  if !(jsTrim r.2).isEmpty then r.1 ++ [jsTrim r.2] else r.1

/-- The venue blocks of the input text: the lines of the venue content are
folded into blocks starting at pin lines, each block trimmed, blank blocks
dropped. -/
def venueBlocksOf (text : JStr) : List JStr :=
  chunkFlush ((splitCh lfCh (venuesContentOf text)).foldl blockStep ([], []))

/-- One step of the line-level fallback packing used when a single block
exceeds the effective limit. -/
def packStepLine (effMax : Int) (acc : List JStr × JStr) (line : JStr) :
    List JStr × JStr :=
  if (jsLen acc.2 : Int) + jsLen line + 1 ≤ effMax then
    (acc.1, acc.2 ++ (if acc.2.isEmpty then [] else [lfCh]) ++ line)
  else (chunkFlush acc, line)

/-- One step of the block packing: a block is appended to the current chunk
when it fits, otherwise the chunk is flushed and the block either starts the
next chunk or, when alone over the limit, is re-split line by line. -/
def packStep (effMax : Int) (acc : List JStr × JStr) (block : JStr) :
    List JStr × JStr :=
  if (jsLen acc.2 : Int) + jsLen block + 2 ≤ effMax then
    (acc.1, acc.2 ++ (if acc.2.isEmpty then [] else [lfCh, lfCh]) ++ block)
  else if effMax < (jsLen block : Int) then
    (splitCh lfCh block).foldl (packStepLine effMax) (chunkFlush acc, [])
  else (chunkFlush acc, block)

/-- The chunk bodies of the thread: the header chunk, the packed venue
chunks, and the footer chunk when non-empty.  The effective limit reserves
ten characters for the counter suffix. -/
def threadChunks (text : JStr) (maxChunkSize : Nat) : List JStr :=
  headerOf text
    :: chunkFlush ((venueBlocksOf text).foldl (packStep ((maxChunkSize : Int) - 10)) ([], []))
    ++ (if (footerOf text).isEmpty then [] else [footerOf text])

/-- The counter suffix appended to each chunk. -/
def counterSuffix (i total : Nat) : JStr :=
  lfCh :: '(' :: natToStr i ++ '/' :: natToStr total ++ [')']

/-- The chunk bodies with their position-total counters appended. -/
def numberedChunks (text : JStr) (maxChunkSize : Nat) : List JStr :=
  (threadChunks text maxChunkSize).enum.map
    (fun p => p.2 ++ counterSuffix (p.1 + 1) (threadChunks text maxChunkSize).length)

/-- The thread-boundary marker joining the final messages. -/
def threadBoundary : JStr :=
  [lfCh, lfCh] ++ ("---THREAD---").data ++ [lfCh, lfCh]

/-- The full chunker: numbered chunks joined by the boundary marker. -/
def chunkForTwitterThread (text : JStr) (maxChunkSize : Nat) : JStr :=
  List.intercalate threadBoundary (numberedChunks text maxChunkSize)

/-! ## Collage layout generator (lib/collage.js)

The numeric layout is translated over the real numbers: the JavaScript
floating-point sqrt, the percentage arithmetic, and the random draws become
real arithmetic with injected random streams in the unit interval.  The
one-decimal display rounding applied when the numbers are interpolated into
the style string is presentation only and is not modelled. -/

/-- Left edge of the poster area (center-point bounds, percent). -/
def aMinX : ℝ := 5

/-- Right edge of the poster area. -/
def aMaxX : ℝ := 95

/-- Top edge of the poster area. -/
def aMinY : ℝ := 5

/-- Bottom edge of the poster area. -/
def aMaxY : ℝ := 88

/-- Base radial expansion factor. -/
def RADIAL_EXPANSION : ℝ := 1.1

/-- Jitter factor: jitter stays within half of the cell size. -/
def JITTER_FACTOR : ℝ := 0.5

/-- Maximum rotation magnitude in degrees. -/
def MAX_ROTATION_DEG : ℝ := 8

/-- Base poster count for sizing. -/
def BASE_POSTER_COUNT : ℝ := 28

/-- Base poster width percentage. -/
def BASE_POSTER_WIDTH : ℝ := 18

/-- Maximum poster width percentage. -/
def MAX_POSTER_WIDTH : ℝ := 30

/-- Ceiling of the square root of a natural number, the integer value of the
JavaScript Math.ceil of Math.sqrt on an exact integer argument. -/
def jsCeilSqrt (n : Nat) : Nat :=
  if Nat.sqrt n * Nat.sqrt n = n then Nat.sqrt n else Nat.sqrt n + 1

/-- Number of grid columns. -/
def collageCols (count : Nat) : Nat := jsCeilSqrt count

/-- Number of grid rows. -/
def collageRows (count : Nat) : Nat :=
  (count + collageCols count - 1) / collageCols count

/-- The scale factor sqrt of base count over count. -/
noncomputable def scaleFactor (count : Nat) : ℝ :=
  Real.sqrt (BASE_POSTER_COUNT / count)

/-- The shared poster width: base width scaled, clamped at the maximum. -/
noncomputable def posterWidth (count : Nat) : ℝ :=
  min (BASE_POSTER_WIDTH * scaleFactor count) MAX_POSTER_WIDTH

/-- The radial expansion grows slightly as the poster count shrinks. -/
noncomputable def dynamicExpansion (count : Nat) : ℝ :=
  RADIAL_EXPANSION + (scaleFactor count - 1) * 0.01

/-- Width of one grid cell. -/
noncomputable def cellWidth (count : Nat) : ℝ :=
  (aMaxX - aMinX) / collageCols count

/-- Height of one grid cell. -/
noncomputable def cellHeight (count : Nat) : ℝ :=
  (aMaxY - aMinY) / collageRows count

/-- Horizontal center of the poster area. -/
noncomputable def centerX : ℝ := (aMinX + aMaxX) / 2

/-- Vertical center of the poster area. -/
noncomputable def centerY : ℝ := (aMinY + aMaxY) / 2

/-- Horizontal position of item i after grid placement and jitter, before
the radial push-out; r is the random draw of the jitter. -/
noncomputable def rawPosX (count i : Nat) (r : ℝ) : ℝ :=
  aMinX + cellWidth count / 2 + ((i % collageCols count : Nat) : ℝ) * cellWidth count
    + (r - 0.5) * cellWidth count * JITTER_FACTOR

/-- Vertical position of item i after grid placement and jitter, before the
radial push-out. -/
noncomputable def rawPosY (count i : Nat) (r : ℝ) : ℝ :=
  aMinY + cellHeight count / 2 + ((i / collageCols count : Nat) : ℝ) * cellHeight count
    + (r - 0.5) * cellHeight count * JITTER_FACTOR

/-- Final horizontal position: pushed out from the center by the dynamic
expansion factor. -/
noncomputable def finalPosX (count i : Nat) (r : ℝ) : ℝ :=
  centerX + (rawPosX count i r - centerX) * dynamicExpansion count

/-- Final vertical position. -/
noncomputable def finalPosY (count i : Nat) (r : ℝ) : ℝ :=
  centerY + (rawPosY count i r - centerY) * dynamicExpansion count

/-- One poster placement: percent position of the poster center, shared
width, rotation, and stacking index. -/
structure PosterPlacement where
  leftPercent : ℝ
  topPercent : ℝ
  widthPercent : ℝ
  rotationDeg : ℝ
  zIndex : Nat

/-- The collage placements for a shuffled sequence of the given length: item
i takes grid cell i (row-major), jittered by the rx and ry streams, pushed
out radially, rotated by the rr stream over plus-minus eight degrees, and
stacked in sequence order. -/
noncomputable def collagePlacements (count : Nat) (rx ry rr : Nat → ℝ) :
    List PosterPlacement :=
  (List.range count).map (fun i =>
    ⟨finalPosX count i (rx i), finalPosY count i (ry i), posterWidth count,
      rr i * (MAX_ROTATION_DEG * 2) - MAX_ROTATION_DEG, i⟩)

/-- The display-item multiset described by the specification for the
grouped case, written from the spec wording for comparison with the code:
one pluralized count item per group of two or more venues, the bare venue
name for a singleton group, and one item per ungrouped venue. -/
def specGroupedDisplay (venues : List Venue) : List DisplayItem :=
  ((dedupF (venues.filterMap venueGroupKey)).map (fun g =>
    let ns := (venues.filter (fun v => decide (venueGroupKey v = some g))).map Venue.name
    if ns.length = 1 then (⟨ns.headD [], 1⟩ : DisplayItem)
    else ⟨natToStr ns.length ++ [' '] ++ pluralize g, ns.length⟩))
    ++ (venues.filter (fun v => decide (venueGroupKey v = none))).map
        (fun v => (⟨v.name, 1⟩ : DisplayItem))

/-- An empty social-handle table for example venues. -/
def noSocials : JStr → Option JStr := fun _ => none

/-- The eight-venue example of the specification: two Picturehouse branches,
five ODEON branches, and the ungrouped Rio. -/
def exampleVenues : List Venue :=
  [⟨("Picturehouse Central").data, some (("Picturehouse").data), noSocials⟩,
   ⟨("Picturehouse East").data, some (("Picturehouse").data), noSocials⟩,
   ⟨("Rio").data, none, noSocials⟩,
   ⟨("ODEON Camden").data, some (("ODEON").data), noSocials⟩,
   ⟨("ODEON Greenwich").data, some (("ODEON").data), noSocials⟩,
   ⟨("ODEON Holloway").data, some (("ODEON").data), noSocials⟩,
   ⟨("ODEON Islington").data, some (("ODEON").data), noSocials⟩,
   ⟨("ODEON Leicester Square").data, some (("ODEON").data), noSocials⟩]

/-- An empty venue table. -/
def venuesNone : JStr → Option Venue := fun _ => none

/-- A compact configuration whose fixed content alone (a 2100-character
header) exceeds the 2000-character instagram budget, at a given top-picks
count. -/
def cfgBigWith (t : Int) : CompactConfig :=
  ⟨List.replicate 2100 'a', ("I").data, ("T").data, ("F").data, t, 2⟩

/-- The concatenated trimmed non-blank lines of a list of strings. -/
def tlFlat (xs : List JStr) : List JStr :=
  (xs.map trimmedLines).flatten

/-- One string occurring contiguously inside another (never split across a
boundary). -/
def subSeg (x y : JStr) : Prop := ∃ u v, y = u ++ x ++ v

/-- Header part of a small concrete chunker input. -/
def hdr7 : JStr := ("Hello London").data

/-- Venue part of a small concrete chunker input: two pin-led blocks. -/
def ven7 : JStr :=
  pinCh :: (" Rio").data ++ lfCh :: ("Film A - Mon").data
    ++ lfCh :: pinCh :: (" Genesis").data ++ lfCh :: ("Film B - Tue").data

/-- Footer part of a small concrete chunker input. -/
def ftr7 : JStr := ("#London #Cinema").data

/-- A small concrete full-mode text: header, venue blocks and footer joined
by the section separator. -/
def tex7 : JStr := hdr7 ++ threadSep ++ ven7 ++ threadSep ++ ftr7

/-- A concrete chunker input whose header part alone is 300 characters. -/
def tex2 : JStr :=
  List.replicate 300 'a' ++ threadSep ++ ven7 ++ threadSep ++ ftr7

/-! ## Lemmas about the basic string and list operations -/

theorem jsLen_nil : jsLen [] = 0 := rfl

theorem jsLen_cons (c : Char) (s : JStr) : jsLen (c :: s) = utf16Len c + jsLen s := by
  simp [jsLen]

theorem jsLen_append (a b : JStr) : jsLen (a ++ b) = jsLen a + jsLen b := by
  simp [jsLen]

theorem jsLen_reverse (s : JStr) : jsLen s.reverse = jsLen s := by
  simp [jsLen, List.map_reverse, List.sum_reverse]

theorem jsLen_dropWhile_le (p : Char → Bool) (s : JStr) :
    jsLen (s.dropWhile p) ≤ jsLen s := by
  induction s with
  | nil => simp
  | cons c cs ih =>
    by_cases h : p c
    · rw [List.dropWhile_cons_of_pos h, jsLen_cons]
      omega
    · rw [List.dropWhile_cons_of_neg h]

theorem jsLen_jsTrim_le (s : JStr) : jsLen (jsTrim s) ≤ jsLen s := by
  unfold jsTrim
  rw [jsLen_reverse]
  calc jsLen ((s.dropWhile isWsChar).reverse.dropWhile isWsChar)
      ≤ jsLen (s.dropWhile isWsChar).reverse := jsLen_dropWhile_le _ _
    _ = jsLen (s.dropWhile isWsChar) := jsLen_reverse _
    _ ≤ jsLen s := jsLen_dropWhile_le _ _

theorem length_le_jsLen (s : JStr) : s.length ≤ jsLen s := by
  induction s with
  | nil => simp
  | cons c cs ih =>
    rw [jsLen_cons]
    have : 1 ≤ utf16Len c := by
      unfold utf16Len
      split <;> omega
    simp only [List.length_cons]
    omega

theorem insertLe_perm (le : α → α → Bool) (x : α) (l : List α) :
    List.Perm (insertLe le x l) (x :: l) := by
  induction l with
  | nil => simp [insertLe]
  | cons y ys ih =>
    unfold insertLe
    split
    · exact List.Perm.refl _
    · exact List.Perm.trans (List.Perm.cons y ih) (List.Perm.swap x y ys)

theorem jsSortBy_perm (le : α → α → Bool) (l : List α) :
    List.Perm (jsSortBy le l) l := by
  induction l with
  | nil => exact List.Perm.refl _
  | cons x xs ih =>
    unfold jsSortBy
    exact List.Perm.trans (insertLe_perm le x (jsSortBy le xs)) (List.Perm.cons x ih)

theorem mem_insertLe (le : α → α → Bool) (x : α) (l : List α) (y : α)
    (h : y ∈ insertLe le x l) : y = x ∨ y ∈ l := by
  have := (insertLe_perm le x l).mem_iff.mp h
  simpa using this

theorem pairwise_insertLe (le : α → α → Bool)
    (htot : ∀ a b, le a b = false → le b a = true)
    (htr : ∀ a b c, le a b = true → le b c = true → le a c = true)
    (x : α) (l : List α) (hl : l.Pairwise (fun a b => le a b = true)) :
    (insertLe le x l).Pairwise (fun a b => le a b = true) := by
  induction l with
  | nil => simp [insertLe]
  | cons y ys ih =>
    rcases List.pairwise_cons.mp hl with ⟨hy, hys⟩
    unfold insertLe
    split
    · rename_i hxy
      refine List.pairwise_cons.mpr ⟨?_, hl⟩
      intro z hz
      rcases List.mem_cons.mp hz with rfl | hz
      · exact hxy
      · exact htr x y z hxy (hy z hz)
    · rename_i hxy
      have hyx : le y x = true := htot x y (Bool.not_eq_true _ ▸ (by simpa using hxy))
      refine List.pairwise_cons.mpr ⟨?_, ih hys⟩
      intro z hz
      rcases mem_insertLe le x ys z hz with rfl | hz
      · exact hyx
      · exact hy z hz

theorem jsSortBy_pairwise (le : α → α → Bool)
    (htot : ∀ a b, le a b = false → le b a = true)
    (htr : ∀ a b c, le a b = true → le b c = true → le a c = true)
    (l : List α) : (jsSortBy le l).Pairwise (fun a b => le a b = true) := by
  induction l with
  | nil => simp [jsSortBy]
  | cons x xs ih =>
    unfold jsSortBy
    exact pairwise_insertLe le htot htr x _ ih

theorem strLeb_total (a : JStr) : ∀ b, strLeb a b = false → strLeb b a = true := by
  induction a with
  | nil => intro b h; simp [strLeb] at h
  | cons x xs ih =>
    intro b h
    cases b with
    | nil => simp [strLeb]
    | cons y ys =>
      by_cases hxy : x = y
      · subst hxy
        simp only [strLeb, if_pos rfl] at h ⊢
        exact ih ys h
      · have hyx : ¬ y = x := fun hh => hxy hh.symm
        simp only [strLeb, if_neg hxy, decide_eq_false_iff_not] at h
        simp only [strLeb, if_neg hyx, decide_eq_true_eq]
        exact (lt_or_gt_of_ne hyx).resolve_right h

theorem strLeb_trans (a : JStr) :
    ∀ b c, strLeb a b = true → strLeb b c = true → strLeb a c = true := by
  induction a with
  | nil => intro b c _ _; simp [strLeb]
  | cons x xs ih =>
    intro b c hab hbc
    cases b with
    | nil => simp [strLeb] at hab
    | cons y ys =>
      cases c with
      | nil => simp [strLeb] at hbc
      | cons z zs =>
        by_cases hxy : x = y
        · subst hxy
          simp only [strLeb, if_pos rfl] at hab
          by_cases hyz : x = z
          · subst hyz
            simp only [strLeb, if_pos rfl] at hbc ⊢
            exact ih ys zs hab hbc
          · simp only [strLeb, if_neg hyz] at hbc ⊢
            exact hbc
        · simp only [strLeb, if_neg hxy, decide_eq_true_eq] at hab
          by_cases hyz : y = z
          · subst hyz
            simp only [strLeb, if_neg hxy, decide_eq_true_eq]
            exact hab
          · simp only [strLeb, if_neg hyz, decide_eq_true_eq] at hbc
            have hlt : x < z := lt_trans hab hbc
            simp only [strLeb, if_neg (ne_of_lt hlt), decide_eq_true_eq]
            exact hlt

theorem mem_dedupFAux [DecidableEq α] (l : List α) :
    ∀ (seen : List α) (x : α), x ∈ dedupFAux l seen → x ∈ l ∧ x ∉ seen := by
  induction l with
  | nil => intro seen x h; simp [dedupFAux] at h
  | cons y ys ih =>
    intro seen x h
    unfold dedupFAux at h
    split at h
    · rcases ih seen x h with ⟨h1, h2⟩
      exact ⟨List.mem_cons_of_mem _ h1, h2⟩
    · rename_i hy
      rcases List.mem_cons.mp h with rfl | h
      · exact ⟨List.mem_cons_self _ _, hy⟩
      · rcases ih (y :: seen) x h with ⟨h1, h2⟩
        exact ⟨List.mem_cons_of_mem _ h1, fun hc => h2 (List.mem_cons_of_mem _ hc)⟩

theorem mem_dedupF [DecidableEq α] (l : List α) (x : α) (h : x ∈ dedupF l) :
    x ∈ l :=
  (mem_dedupFAux l [] x h).1

theorem length_filter_add_not (p : α → Bool) (l : List α) :
    (l.filter p).length + (l.filter (fun y => !(p y))).length = l.length := by
  induction l with
  | nil => simp
  | cons c cs ih =>
    by_cases h : p c <;> simp [List.filter_cons, h] <;> omega

theorem filter_mem_partition [DecidableEq α] (x : α) (seen : List α)
    (hx : x ∉ seen) (xs : List α) :
    (xs.filter (fun y => decide (y = x))).length
      + (xs.filter (fun y => decide (y ∉ x :: seen))).length
      = (xs.filter (fun y => decide (y ∉ seen))).length := by
  induction xs with
  | nil => simp
  | cons y ys ih =>
    by_cases hyx : y = x
    · subst hyx
      simp [List.filter_cons, hx] at ih ⊢
      omega
    · by_cases hys : y ∈ seen
      · simp [List.filter_cons, hyx, hys] at ih ⊢
        omega
      · simp [List.filter_cons, hyx, hys] at ih ⊢
        omega

theorem sum_filter_dedupFAux [DecidableEq α] (ks : List α) :
    ∀ seen : List α,
    ((dedupFAux ks seen).map (fun g => (ks.filter (fun y => decide (y = g))).length)).sum
      = (ks.filter (fun y => decide (y ∉ seen))).length := by
  induction ks with
  | nil => intro seen; simp [dedupFAux]
  | cons x xs ih =>
    intro seen
    have hcong : ∀ seen2 : List α, x ∈ seen2 →
        ((dedupFAux xs seen2).map (fun g => ((x :: xs).filter (fun y => decide (y = g))).length)).sum
          = ((dedupFAux xs seen2).map (fun g => (xs.filter (fun y => decide (y = g))).length)).sum := by
      intro seen2 hx2
      apply congrArg
      apply List.map_congr_left
      intro g hg
      have hgx : g ≠ x := by
        intro hc
        exact (mem_dedupFAux xs seen2 g hg).2 (hc ▸ hx2)
      rw [List.filter_cons]
      simp only [decide_eq_true_eq]
      rw [if_neg (fun hc => hgx hc.symm)]
    unfold dedupFAux
    split
    · rename_i hx
      rw [hcong seen hx, ih seen]
      have : ((x :: xs).filter (fun y => decide (y ∉ seen)))
          = xs.filter (fun y => decide (y ∉ seen)) := by
        simp [List.filter_cons, hx]
      rw [this]
    · rename_i hx
      simp only [List.map_cons, List.sum_cons]
      rw [hcong (x :: seen) (List.mem_cons_self x seen), ih (x :: seen)]
      have hhead : ((x :: xs).filter (fun y => decide (y = x))).length
          = 1 + (xs.filter (fun y => decide (y = x))).length := by
        simp [List.filter_cons]
        omega
      have htail : ((x :: xs).filter (fun y => decide (y ∉ seen))).length
          = 1 + (xs.filter (fun y => decide (y ∉ seen))).length := by
        simp [List.filter_cons, hx]
        omega
      have hpart := filter_mem_partition x seen hx xs
      rw [hhead, htail]
      omega

theorem sum_filter_dedupF [DecidableEq α] (ks : List α) :
    ((dedupF ks).map (fun g => (ks.filter (fun y => decide (y = g))).length)).sum
      = ks.length := by
  rw [dedupF, sum_filter_dedupFAux ks []]
  have : ks.filter (fun y => decide (y ∉ ([] : List α))) = ks := by
    apply List.filter_eq_self.mpr
    intro a _
    simp
  rw [this]

theorem sum_ones (l : List α) : ((l.map (fun _ => (1 : Nat))).sum) = l.length := by
  induction l with
  | nil => rfl
  | cons x xs ih => simp [ih]; omega

theorem filter_key_length (key : α → Option K) [DecidableEq K] (g : K) (l : List α) :
    (l.filter (fun v => decide (key v = some g))).length
      = ((l.filterMap key).filter (fun y => decide (y = g))).length := by
  induction l with
  | nil => simp
  | cons v vs ih =>
    cases hk : key v with
    | none => simp [List.filter_cons, List.filterMap_cons, hk, ih]
    | some k =>
      by_cases hkg : k = g
      · subst hkg
        simp [List.filter_cons, List.filterMap_cons, hk, ih]
      · simp [List.filter_cons, List.filterMap_cons, hk, hkg, ih]

theorem filterMap_length_split [DecidableEq K] (key : α → Option K) (l : List α) :
    (l.filterMap key).length + (l.filter (fun v => decide (key v = none))).length
      = l.length := by
  induction l with
  | nil => simp
  | cons v vs ih =>
    cases hk : key v with
    | none => simp [List.filter_cons, List.filterMap_cons, hk]; omega
    | some k => simp [List.filter_cons, List.filterMap_cons, hk]; omega

/-! ## Venue aggregator lemmas and claims -/

theorem sumCounts_append (a b : List DisplayItem) :
    sumCounts (a ++ b) = sumCounts a + sumCounts b := by
  simp [sumCounts]

theorem sumCounts_perm (a b : List DisplayItem) (h : List.Perm a b) :
    sumCounts a = sumCounts b :=
  List.Perm.sum_eq (h.map DisplayItem.venueCount)

theorem groupItem_count (p : JStr × List JStr) :
    (groupItem p).venueCount = p.2.length := by
  unfold groupItem
  split
  · rename_i h
    simp [h]
  · rfl

theorem sumCounts_map_one (l : List α) (f : α → JStr) :
    sumCounts (l.map (fun x => ⟨f x, 1⟩)) = l.length := by
  unfold sumCounts
  rw [List.map_map]
  exact sum_ones l

theorem sumCounts_displayItems (venues : List Venue) :
    sumCounts (displayItems venues) = venues.length := by
  unfold displayItems
  rw [sumCounts_perm _ _ (jsSortBy_perm (fun a b => strLeb a.text b.text) (rawDisplayItems venues))]
  unfold rawDisplayItems
  split
  · exact sumCounts_map_one venues Venue.name
  · rw [sumCounts_append]
    have hg : sumCounts ((jsSortBy (fun a b => strLeb a.1 b.1) (groupedPairs venues)).map groupItem)
        = (venues.filterMap venueGroupKey).length := by
      rw [sumCounts_perm _ _ (List.Perm.map groupItem (jsSortBy_perm _ (groupedPairs venues)))]
      unfold sumCounts groupedPairs
      rw [List.map_map, List.map_map]
      have hstep : ∀ x, x = (dedupF (venues.filterMap venueGroupKey)).map
            (fun g => ((venues.filterMap venueGroupKey).filter (fun y => decide (y = g))).length)
          → x.sum = (venues.filterMap venueGroupKey).length := by
        intro x hx
        rw [hx]
        exact sum_filter_dedupF (venues.filterMap venueGroupKey)
      apply hstep
      apply List.map_congr_left
      intro g _
      simp only [Function.comp_apply, groupItem_count, List.length_map]
      exact filter_key_length venueGroupKey g venues
    have hu : sumCounts ((jsSortBy strLeb (ungroupedNames venues)).map (fun n => ⟨n, 1⟩))
        = (venues.filter (fun v => decide (venueGroupKey v = none))).length := by
      rw [sumCounts_perm _ _ (List.Perm.map _ (jsSortBy_perm strLeb (ungroupedNames venues)))]
      rw [sumCounts_map_one]
      unfold ungroupedNames
      exact List.length_map _ _
    rw [hg, hu]
    exact filterMap_length_split venueGroupKey venues

/-- C3: the sum of venueCount over the display items produced from a venue
set equals the number of venues in that set, including after truncation to
six items plus the synthetic more item whose venueCount is the sum of the
dropped venueCount values. -/
theorem claim3_venueCount_sum (venues : List Venue) :
    sumCounts (finalDisplayItems venues) = venues.length := by
  have hsum := sumCounts_displayItems venues
  unfold finalDisplayItems
  split
  · rename_i h
    rw [sumCounts_append]
    unfold finalItems moreVenueCount
    rw [if_pos h, if_pos h]
    have hsplit : sumCounts ((displayItems venues).take (MAX_DISPLAY_ITEMS - 1))
          + sumCounts ((displayItems venues).drop (MAX_DISPLAY_ITEMS - 1))
        = sumCounts (displayItems venues) := by
      rw [← sumCounts_append, List.take_append_drop]
    have hone : sumCounts [⟨moreText (sumCounts ((displayItems venues).drop (MAX_DISPLAY_ITEMS - 1))),
        sumCounts ((displayItems venues).drop (MAX_DISPLAY_ITEMS - 1))⟩]
        = sumCounts ((displayItems venues).drop (MAX_DISPLAY_ITEMS - 1)) := by
      simp [sumCounts]
    rw [hone]
    omega
  · exact hsum

/-- C6: when more than seven venues remain, the display items are, as a
multiset, exactly the spec partition (groups of two or more collapse to a
pluralized count item, singleton groups and ungrouped venues keep bare
names), and the final list is sorted lexically by display text as the
authoritative order. -/
theorem claim6_grouping (venues : List Venue)
    (h : MAX_DISPLAY_ITEMS < venues.length) :
    List.Perm (displayItems venues) (specGroupedDisplay venues)
      ∧ (displayItems venues).Pairwise (fun a b => strLeb a.text b.text = true) := by
  constructor
  · unfold displayItems
    refine (jsSortBy_perm (fun a b => strLeb a.text b.text) (rawDisplayItems venues)).trans ?_
    unfold rawDisplayItems specGroupedDisplay
    rw [if_neg (by omega)]
    refine List.Perm.append ?_ ?_
    · refine (List.Perm.map groupItem (jsSortBy_perm _ (groupedPairs venues))).trans ?_
      unfold groupedPairs
      rw [List.map_map]
      apply List.Perm.of_eq
      apply List.map_congr_left
      intro g _
      simp only [Function.comp_apply, groupItem]
    · refine (List.Perm.map _ (jsSortBy_perm strLeb (ungroupedNames venues))).trans ?_
      unfold ungroupedNames
      rw [List.map_map]
      exact List.Perm.refl _
  · unfold displayItems
    exact jsSortBy_pairwise _ (fun a b hab => strLeb_total a.text b.text hab)
      (fun a b c hab hbc => strLeb_trans a.text b.text c.text hab hbc) _

/-- Witness for C6: the eight-venue example of the specification satisfies
the hypothesis and the conclusion. -/
theorem claim6_witness :
    MAX_DISPLAY_ITEMS < exampleVenues.length
      ∧ (List.Perm (displayItems exampleVenues) (specGroupedDisplay exampleVenues)
      ∧ (displayItems exampleVenues).Pairwise (fun a b => strLeb a.text b.text = true)) :=
  ⟨by decide, claim6_grouping exampleVenues (by decide)⟩

/-- C9: rendering a display-item list of zero, one, two, or three or more
items (with no truncation pending) produces exactly the documented joiner
forms, in the plain-text rendering and in the HTML rendering where each
name passes through the styling wrapper; the three-item concrete example
renders as documented. -/
theorem claim9_joiner_forms :
    (renderPlainItems [] 0 = [] ∧ renderHtmlItems [] 0 = [])
    ∧ (∀ a : DisplayItem,
        renderPlainItems [a] 0 = a.text
        ∧ renderHtmlItems [a] 0 = wrapVenue a.text)
    ∧ (∀ a b : DisplayItem,
        renderPlainItems [a, b] 0 = a.text ++ (" & ").data ++ b.text
        ∧ renderHtmlItems [a, b] 0 = wrapVenue a.text ++ (" & ").data ++ wrapVenue b.text)
    ∧ (∀ (a b c : DisplayItem) (rest : List DisplayItem),
        renderPlainItems (a :: b :: c :: rest) 0
          = joinSep (", ").data ((a :: b :: c :: rest).dropLast.map DisplayItem.text)
            ++ (", & ").data ++ ((a :: b :: c :: rest).getLastD ⟨[], 0⟩).text
        ∧ renderHtmlItems (a :: b :: c :: rest) 0
          = joinSep (", ").data ((a :: b :: c :: rest).dropLast.map (fun i => wrapVenue i.text))
            ++ (", & ").data ++ wrapVenue ((a :: b :: c :: rest).getLastD ⟨[], 0⟩).text)
    ∧ renderPlainItems [⟨('A' :: []), 1⟩, ⟨('B' :: []), 1⟩, ⟨('C' :: []), 1⟩] 0
        = ("A, B, & C").data := by
  refine ⟨⟨rfl, rfl⟩, ?_, ?_, ?_, by decide⟩
  · intro a
    constructor <;> simp [renderPlainItems, renderHtmlItems]
  · intro a b
    constructor <;> simp [renderPlainItems, renderHtmlItems]
  · intro a b c rest
    constructor <;>
    · simp only [renderPlainItems, renderHtmlItems, List.length_cons]
      rw [if_neg (by omega), if_neg (by omega), if_neg (by omega), if_pos (by omega)]

/-- C10: a lookup miss is never fatal.  A venue id absent from the venue
table is dropped by the aggregator before any counting (so the display
items are those of the remaining ids), and the composer resolves a missing
venue entry to the Unknown venue placeholder and a missing social handle to
the empty string, always producing a complete section. -/
theorem claim10_lookup_miss
    (table : JStr → Option Venue) (ids1 ids2 : List JStr) (vid : JStr)
    (hmiss : table vid = none)
    (cfg : SocialConfig) (es : Nat → Nat) (k : Nat) (ms : List Movie) :
    venueDataOf table (ids1 ++ vid :: ids2) = venueDataOf table (ids1 ++ ids2)
    ∧ displayItems (venueDataOf table (ids1 ++ vid :: ids2))
        = displayItems (venueDataOf table (ids1 ++ ids2))
    ∧ venueSectionOf table cfg es k vid ms
        = pinCh :: ' ' :: unknownVenue ++ [lfCh]
          ++ joinStr (ms.enum.map (fun p => movieLineOf cfg es (k + p.1) p.2 (compactOf cfg)))
          ++ [lfCh]
    ∧ handleTextOf table cfg vid (compactOf cfg) = [] := by
  have hdrop : venueDataOf table (ids1 ++ vid :: ids2) = venueDataOf table (ids1 ++ ids2) := by
    unfold venueDataOf
    rw [List.filterMap_append, List.filterMap_append, List.filterMap_cons, hmiss]
  have hhandle : handleTextOf table cfg vid (compactOf cfg) = [] := by
    unfold handleTextOf handleOf
    rw [hmiss]
    rfl
  refine ⟨hdrop, by rw [hdrop], ?_, hhandle⟩
  unfold venueSectionOf venueNameOf
  rw [hmiss, hhandle]
  simp

/-- Witness for C10 at a concrete missing id: the empty venue table misses
the id v1, which is dropped by the aggregator and rendered as the
placeholder by the composer. -/
theorem claim10_witness :
    (fun _ : JStr => (none : Option Venue)) (("v1").data) = none
    ∧ (venueDataOf (fun _ => none) ([("a").data] ++ ("v1").data :: [])
          = venueDataOf (fun _ => none) ([("a").data] ++ [])
      ∧ displayItems (venueDataOf (fun _ => none) ([("a").data] ++ ("v1").data :: []))
          = displayItems (venueDataOf (fun _ => none) ([("a").data] ++ []))
      ∧ venueSectionOf (fun _ => none)
            ⟨none, [], [], [], [], none, none⟩ (fun _ => 0) 0 (("v1").data) []
          = pinCh :: ' ' :: unknownVenue ++ [lfCh]
            ++ joinStr (([] : List Movie).enum.map (fun p =>
                movieLineOf ⟨none, [], [], [], [], none, none⟩ (fun _ => 0) (0 + p.1) p.2
                  (compactOf ⟨none, [], [], [], [], none, none⟩)))
            ++ [lfCh]
      ∧ handleTextOf (fun _ => none) ⟨none, [], [], [], [], none, none⟩ (("v1").data)
            (compactOf ⟨none, [], [], [], [], none, none⟩) = []) :=
  ⟨rfl, claim10_lookup_miss (fun _ => none) [("a").data] [] (("v1").data) rfl
    ⟨none, [], [], [], [], none, none⟩ (fun _ => 0) 0 []⟩

/-! ## Composer determinism (claim C4) -/

theorem movieLineOf_indep (cfg : SocialConfig) (es1 es2 : Nat → Nat)
    (h : compactOf cfg = true ∨ cfg.formatMovieLine ≠ none)
    (k : Nat) (m : Movie) :
    movieLineOf cfg es1 k m (compactOf cfg) = movieLineOf cfg es2 k m (compactOf cfg) := by
  unfold movieLineOf
  cases hf : cfg.formatMovieLine with
  | some f => rfl
  | none =>
    have hc : compactOf cfg = true := by
      rcases h with hc | hne
      · exact hc
      · exact absurd hf hne
    rw [hc]
    unfold defaultFormatLine
    rfl

theorem venueSectionOf_indep (venues : JStr → Option Venue) (cfg : SocialConfig)
    (es1 es2 : Nat → Nat)
    (h : compactOf cfg = true ∨ cfg.formatMovieLine ≠ none)
    (k : Nat) (vid : JStr) (ms : List Movie) :
    venueSectionOf venues cfg es1 k vid ms = venueSectionOf venues cfg es2 k vid ms := by
  unfold venueSectionOf
  have : (ms.enum.map (fun p => movieLineOf cfg es1 (k + p.1) p.2 (compactOf cfg)))
      = (ms.enum.map (fun p => movieLineOf cfg es2 (k + p.1) p.2 (compactOf cfg))) := by
    apply List.map_congr_left
    intro p _
    exact movieLineOf_indep cfg es1 es2 h (k + p.1) p.2
  rw [this]

theorem venueSectionsOf_indep (movies : List Movie) (venues : JStr → Option Venue)
    (cfg : SocialConfig) (es1 es2 : Nat → Nat)
    (h : compactOf cfg = true ∨ cfg.formatMovieLine ≠ none) :
    venueSectionsOf movies venues cfg es1 = venueSectionsOf movies venues cfg es2 := by
  unfold venueSectionsOf
  have hfold : ∀ (l : List JStr) (acc : List JStr × Nat),
      l.foldl (fun acc vid =>
        let ms := bucketMovies movies vid
        (acc.1 ++ [venueSectionOf venues cfg es1 acc.2 vid ms], acc.2 + ms.length)) acc
      = l.foldl (fun acc vid =>
        let ms := bucketMovies movies vid
        (acc.1 ++ [venueSectionOf venues cfg es2 acc.2 vid ms], acc.2 + ms.length)) acc := by
    intro l
    induction l with
    | nil => intro acc; rfl
    | cons vid rest ih =>
      intro acc
      simp only [List.foldl_cons]
      rw [venueSectionOf_indep venues cfg es1 es2 h]
      exact ih _
  rw [hfold]

/-- C4 (amended): the composer is a deterministic function of its inputs
whenever a compact platform (twitter or instagram) applies or a custom line
formatter is configured: the output does not depend on the injected random
stream.  With the default formatter in full mode the output does depend on
the ambient random emoji draws (see the counterexample). -/
theorem claim4_deterministic_when_compact (es1 es2 : Nat → Nat)
    (movies : List Movie) (venues : JStr → Option Venue) (cfg : SocialConfig)
    (h : compactOf cfg = true ∨ cfg.formatMovieLine ≠ none) :
    generateSocialText es1 movies venues cfg = generateSocialText es2 movies venues cfg := by
  unfold generateSocialText
  rw [venueSectionsOf_indep movies venues cfg es1 es2 h]

/-- Witness for C4: a concrete twitter-platform configuration satisfies the
hypothesis, and two different streams give equal output. -/
theorem claim4_witness :
    (compactOf ⟨some (("twitter").data), ("H").data, ("I").data, ("T").data,
        ("F").data, none, none⟩ = true
      ∨ (⟨some (("twitter").data), ("H").data, ("I").data, ("T").data,
        ("F").data, none, none⟩ : SocialConfig).formatMovieLine ≠ none)
    ∧ generateSocialText (fun _ => 0) [⟨("A").data, none, none⟩] (fun _ => none)
        ⟨some (("twitter").data), ("H").data, ("I").data, ("T").data, ("F").data, none, none⟩
      = generateSocialText (fun _ => 1) [⟨("A").data, none, none⟩] (fun _ => none)
        ⟨some (("twitter").data), ("H").data, ("I").data, ("T").data, ("F").data, none, none⟩ :=
  ⟨Or.inl (by decide),
    claim4_deterministic_when_compact (fun _ => 0) (fun _ => 1)
      [⟨("A").data, none, none⟩] (fun _ => none)
      ⟨some (("twitter").data), ("H").data, ("I").data, ("T").data, ("F").data, none, none⟩
      (Or.inl (by decide))⟩

/-- Counterexample for C4 as stated: with the null platform (full mode, no
character limit) and the default line formatter, two runs differing only in
the ambient random emoji draws produce different text, so the composer is
not a pure function of the movie list, venue table, and configuration
alone. -/
theorem claim4_counterexample :
    generateSocialText (fun _ => 0) [⟨("A").data, none, none⟩] (fun _ => none)
        ⟨none, ("H").data, ("I").data, ("T").data, ("F").data, none, none⟩
      ≠ generateSocialText (fun _ => 1) [⟨("A").data, none, none⟩] (fun _ => none)
        ⟨none, ("H").data, ("I").data, ("T").data, ("F").data, none, none⟩ := by
  decide

/-! ## Compact composer budget and termination (claim C1) -/

theorem jsSlice0_nil (e : Int) : jsSlice0 ([] : List α) e = [] := by
  unfold jsSlice0
  split <;> simp

theorem topPicksOf_nil (t : Int) : topPicksOf [] t = [] := by
  simp [topPicksOf, jsSortBy, jsSlice0_nil]

theorem compactOutput_nil_tpc (venues : JStr → Option Venue)
    (cfg : CompactConfig) (t : Int) :
    compactOutput [] venues { cfg with topPicksCount := t }
      = compactOutput [] venues cfg := by
  unfold compactOutput topPicksBlock
  rw [topPicksOf_nil, topPicksOf_nil]

/-- C1 (amended): whenever the compact instagram composer returns a result,
that result fits the 2000-character budget; it never returns over-budget
text.  The other half of the original claim fails: the retry recursion is
not bounded by the initial top-picks count and there is no explicit
budget-exceeded failure (see the counterexample, where the recursion is
still running after twenty calls even though an initial count of fifteen
allows at most eight reductions). -/
theorem claim1_compact_within_budget (fuel : Nat) (movies : List Movie)
    (venues : JStr → Option Venue) (cfg : CompactConfig) :
    Option.all (fun s => decide (jsLen s ≤ 2000))
      (generateInstagramCompactText fuel movies venues cfg) = true := by
  induction fuel generalizing cfg with
  | zero => rfl
  | succ k ih =>
    rw [generateInstagramCompactText]
    split
    · exact ih _
    · rename_i h
      simp only [Option.all]
      simp at h ⊢
      omega

theorem jsLen_replicate (n : Nat) (c : Char) :
    jsLen (List.replicate n c) = n * utf16Len c := by
  induction n with
  | zero => simp [jsLen]
  | succ k ih =>
    rw [List.replicate_succ, jsLen_cons, ih]
    ring

theorem claim1_aux (n : Nat) :
    ∀ t : Int, generateInstagramCompactText n [] venuesNone (cfgBigWith t) = none := by
  have hbig : 2000 < jsLen (compactOutput [] venuesNone (cfgBigWith 0)) := by
    unfold compactOutput
    simp only [jsLen_append, jsLen_cons]
    have hh : (cfgBigWith 0).header = List.replicate 2100 'a' := rfl
    rw [hh, jsLen_replicate]
    have hu : utf16Len 'a' = 1 := rfl
    rw [hu]
    omega
  induction n with
  | zero => intro t; rfl
  | succ k ih =>
    intro t
    rw [generateInstagramCompactText]
    have hout : compactOutput [] venuesNone (cfgBigWith t)
        = compactOutput [] venuesNone (cfgBigWith 0) := by
      have h1 : cfgBigWith t = { cfgBigWith 0 with topPicksCount := t } := rfl
      rw [h1, compactOutput_nil_tpc]
    rw [hout, if_pos hbig]
    have h2 : ({ cfgBigWith t with topPicksCount := (cfgBigWith t).topPicksCount - 2 } : CompactConfig)
        = cfgBigWith (t - 2) := rfl
    rw [h2]
    exact ih (t - 2)

/-- Counterexample for C1 as stated: on an input whose fixed content alone
exceeds the budget (movies empty, 2100-character header), the composer
neither returns a result nor surfaces an explicit budget-exceeded failure
within twenty recursive calls, although the claimed bound (topPicksCount
reduced by two from fifteen) allows at most eight; the recursion never
terminates. -/
theorem claim1_counterexample :
    generateInstagramCompactText 20 [] venuesNone (cfgBigWith 15) = none :=
  claim1_aux 20 15

/-! ## Collage layout lemmas and claims (C5 and C8) -/

theorem jsCeilSqrt_pos (n : Nat) (h : 1 ≤ n) : 1 ≤ jsCeilSqrt n := by
  unfold jsCeilSqrt
  have hs : 1 ≤ Nat.sqrt n := by
    rcases Nat.eq_zero_or_pos (Nat.sqrt n) with h0 | h1
    · exfalso
      have := Nat.sqrt_eq_zero.mp h0
      omega
    · exact h1
  split <;> omega

theorem le_ceil_div_mul (a b : Nat) (hb : 0 < b) : a ≤ b * ((a + b - 1) / b) := by
  have h1 := Nat.div_add_mod (a + b - 1) b
  have h2 := Nat.mod_lt (a + b - 1) hb
  omega

theorem collageRows_pos (count : Nat) (h : 1 ≤ count) : 1 ≤ collageRows count := by
  unfold collageRows
  have hc := jsCeilSqrt_pos count h
  have hc2 : 0 < collageCols count := hc
  rw [Nat.le_div_iff_mul_le hc2]
  unfold collageCols at *
  omega

theorem row_lt_rows (count i : Nat) (h1 : 1 ≤ count) (hi : i < count) :
    i / collageCols count < collageRows count := by
  have hc : 0 < collageCols count := jsCeilSqrt_pos count h1
  rw [Nat.div_lt_iff_lt_mul hc]
  have := le_ceil_div_mul count (collageCols count) hc
  unfold collageRows
  calc i < count := hi
    _ ≤ collageCols count * ((count + collageCols count - 1) / collageCols count) := this
    _ = (count + collageCols count - 1) / collageCols count * collageCols count :=
        Nat.mul_comm _ _

theorem cell_pos_bounds (w : ℝ) (hW : 0 < w) (n k : Nat) (hn : 1 ≤ n) (hk : k < n)
    (r : ℝ) (hr0 : 0 ≤ r) (hr1 : r ≤ 1) :
    0 ≤ (w / n) / 2 + k * (w / n) + (r - 0.5) * (w / n) * JITTER_FACTOR
    ∧ (w / n) / 2 + k * (w / n) + (r - 0.5) * (w / n) * JITTER_FACTOR ≤ w := by
  have hnR : (0 : ℝ) < n := by
    have : (1 : ℝ) ≤ n := by exact_mod_cast hn
    linarith
  have hc : 0 < w / n := div_pos hW hnR
  have hkR : (k : ℝ) + 1 ≤ n := by exact_mod_cast hk
  have hnc : (n : ℝ) * (w / n) = w := by
    field_simp
  have hkc : (k : ℝ) * (w / n) ≤ ((n : ℝ) - 1) * (w / n) := by
    apply mul_le_mul_of_nonneg_right _ hc.le
    linarith
  have hjlo : -((w / n) / 4) ≤ (r - 0.5) * (w / n) * JITTER_FACTOR := by
    unfold JITTER_FACTOR
    nlinarith
  have hjhi : (r - 0.5) * (w / n) * JITTER_FACTOR ≤ (w / n) / 4 := by
    unfold JITTER_FACTOR
    nlinarith
  constructor
  · have hknn : 0 ≤ (k : ℝ) * (w / n) := by positivity
    linarith
  · nlinarith

/-- C8: for every count of at least one, the shared poster width equals the
minimum of the base width scaled by the square root of the base count over
the count and the maximum width, each placement carries exactly that width,
and a single-poster collage has width thirty. -/
theorem claim8_poster_width (count : Nat) (h1 : 1 ≤ count) (rx ry rr : Nat → ℝ) :
    posterWidth count = min (18 * Real.sqrt (28 / count)) 30
    ∧ (∀ p ∈ collagePlacements count rx ry rr, p.widthPercent = posterWidth count)
    ∧ posterWidth 1 = 30 := by
  refine ⟨rfl, ?_, ?_⟩
  · intro p hp
    unfold collagePlacements at hp
    rcases List.mem_map.mp hp with ⟨i, _, rfl⟩
    rfl
  · have h28 : (5 / 3 : ℝ) ≤ Real.sqrt 28 := by
      rw [Real.le_sqrt (by norm_num) (by norm_num)]
      norm_num
    unfold posterWidth scaleFactor BASE_POSTER_WIDTH MAX_POSTER_WIDTH BASE_POSTER_COUNT
    rw [show ((1 : Nat) : ℝ) = 1 from Nat.cast_one]
    rw [show (28 : ℝ) / 1 = 28 by norm_num]
    rw [min_eq_right (by linarith)]

/-- Witness for C8 at one poster with zero random streams. -/
theorem claim8_witness :
    (1 : Nat) ≤ 1
    ∧ (posterWidth 1 = min (18 * Real.sqrt (28 / (1 : Nat))) 30
      ∧ (∀ p ∈ collagePlacements 1 (fun _ => 0) (fun _ => 0) (fun _ => 0),
          p.widthPercent = posterWidth 1)
      ∧ posterWidth 1 = 30) :=
  ⟨le_refl 1, claim8_poster_width 1 (le_refl 1) (fun _ => 0) (fun _ => 0) (fun _ => 0)⟩

/-- C5 (amended): for every count of at least one and random draws in the
unit interval, exactly count placements are produced, all sharing one
widthPercent; and the grid-plus-jitter positions lie inside the configured
display bounds before the radial push-out is applied.  After the push-out
the bounds can be exceeded (see the counterexample at count twenty-six), so
the original claim holds only for the pre-push-out positions. -/
theorem claim5_collage_placements (count : Nat) (h1 : 1 ≤ count)
    (rx ry rr : Nat → ℝ)
    (hrx : ∀ i, 0 ≤ rx i ∧ rx i ≤ 1) (hry : ∀ i, 0 ≤ ry i ∧ ry i ≤ 1) :
    (collagePlacements count rx ry rr).length = count
    ∧ (∀ p ∈ collagePlacements count rx ry rr, p.widthPercent = posterWidth count)
    ∧ (∀ i, i < count →
        aMinX ≤ rawPosX count i (rx i) ∧ rawPosX count i (rx i) ≤ aMaxX
        ∧ aMinY ≤ rawPosY count i (ry i) ∧ rawPosY count i (ry i) ≤ aMaxY) := by
  refine ⟨?_, ?_, ?_⟩
  · unfold collagePlacements
    rw [List.length_map, List.length_range]
  · intro p hp
    unfold collagePlacements at hp
    rcases List.mem_map.mp hp with ⟨i, _, rfl⟩
    rfl
  · intro i hi
    have hcols : 1 ≤ collageCols count := jsCeilSqrt_pos count h1
    have hrows : 1 ≤ collageRows count := collageRows_pos count h1
    have hcol : i % collageCols count < collageCols count := Nat.mod_lt i (by omega)
    have hrow : i / collageCols count < collageRows count := row_lt_rows count i h1 hi
    have hx := cell_pos_bounds (aMaxX - aMinX) (by unfold aMaxX aMinX; norm_num)
      (collageCols count) (i % collageCols count) hcols hcol (rx i) (hrx i).1 (hrx i).2
    have hy := cell_pos_bounds (aMaxY - aMinY) (by unfold aMaxY aMinY; norm_num)
      (collageRows count) (i / collageCols count) hrows hrow (ry i) (hry i).1 (hry i).2
    unfold rawPosX rawPosY cellWidth cellHeight
    unfold aMinX aMaxX aMinY aMaxY at *
    constructor
    · linarith [hx.1]
    constructor
    · linarith [hx.2]
    constructor
    · linarith [hy.1]
    · linarith [hy.2]

/-- Witness for C5 at one poster with zero random streams. -/
theorem claim5_witness :
    ((1 : Nat) ≤ 1 ∧ (∀ i : Nat, 0 ≤ (0 : ℝ) ∧ (0 : ℝ) ≤ 1))
    ∧ ((collagePlacements 1 (fun _ => 0) (fun _ => 0) (fun _ => 0)).length = 1
      ∧ (∀ p ∈ collagePlacements 1 (fun _ => 0) (fun _ => 0) (fun _ => 0),
          p.widthPercent = posterWidth 1)
      ∧ (∀ i, i < 1 →
          aMinX ≤ rawPosX 1 i 0 ∧ rawPosX 1 i 0 ≤ aMaxX
          ∧ aMinY ≤ rawPosY 1 i 0 ∧ rawPosY 1 i 0 ≤ aMaxY)) :=
  ⟨⟨le_refl 1, fun _ => ⟨le_refl 0, by norm_num⟩⟩,
    claim5_collage_placements 1 (le_refl 1) (fun _ => 0) (fun _ => 0) (fun _ => 0)
      (fun _ => ⟨le_refl 0, by norm_num⟩) (fun _ => ⟨le_refl 0, by norm_num⟩)⟩

/-- Counterexample for C5 as stated: at twenty-six posters, with the jitter
draw close to one, the sixth placement is pushed past the right bound of
ninety-five percent by the radial expansion, while the draw stays inside
the unit interval. -/
theorem claim5_counterexample :
    (0 ≤ (24 / 25 : ℝ) ∧ (24 / 25 : ℝ) < 1)
    ∧ ∃ p ∈ collagePlacements 26 (fun _ => 24 / 25) (fun _ => 0) (fun _ => 0),
        95 < p.leftPercent := by
  refine ⟨⟨by norm_num, by norm_num⟩, ?_⟩
  have hs26 : Nat.sqrt 26 = 5 := by
    have h5 : 5 ≤ Nat.sqrt 26 := Nat.le_sqrt.mpr (by norm_num)
    have h6 : Nat.sqrt 26 < 6 := Nat.sqrt_lt.mpr (by norm_num)
    omega
  have hcols : collageCols 26 = 6 := by
    unfold collageCols jsCeilSqrt
    rw [hs26]
    norm_num
  have hsq : (1 : ℝ) < Real.sqrt (28 / (26 : Nat)) := by
    rw [show ((26 : Nat) : ℝ) = 26 by norm_num]
    have := (Real.lt_sqrt (by norm_num : (0 : ℝ) ≤ 1)).mpr
      (by norm_num : (1 : ℝ) ^ 2 < 28 / 26)
    exact this
  refine ⟨⟨finalPosX 26 5 (24 / 25), finalPosY 26 5 0, posterWidth 26,
      0 * (MAX_ROTATION_DEG * 2) - MAX_ROTATION_DEG, 5⟩, ?_, ?_⟩
  · unfold collagePlacements
    apply List.mem_map.mpr
    exact ⟨5, by simp, rfl⟩
  · show 95 < finalPosX 26 5 (24 / 25)
    unfold finalPosX rawPosX dynamicExpansion scaleFactor cellWidth centerX
    unfold RADIAL_EXPANSION JITTER_FACTOR BASE_POSTER_COUNT
    unfold aMinX aMaxX
    rw [hcols]
    have hmod : ((5 % 6 : Nat) : ℝ) = 5 := by norm_num
    rw [hmod]
    have h6 : ((6 : Nat) : ℝ) = 6 := by norm_num
    rw [h6]
    nlinarith [hsq]

/-! ## Line-splitting and trimming lemmas for the thread chunker -/

theorem lfCh_eq : lfCh = '\n' := rfl

theorem splitCh_ne_nil (c : Char) (s : JStr) : splitCh c s ≠ [] := by
  induction s with
  | nil => simp [splitCh]
  | cons x xs ih =>
    unfold splitCh
    by_cases hx : x = c
    · simp [hx]
    · simp only [if_neg hx]
      cases h : splitCh c xs with
      | nil => simp
      | cons p ps => simp

theorem splitCh_cons_eq (c x : Char) (xs : JStr) :
    splitCh c (x :: xs) = if x = c then [] :: splitCh c xs
      else match splitCh c xs with
        | [] => [[x]]
        | p :: ps => (x :: p) :: ps := rfl

theorem splitCh_append (c : Char) (a b : JStr) :
    splitCh c (a ++ c :: b) = splitCh c a ++ splitCh c b := by
  induction a with
  | nil => simp [splitCh]
  | cons x xs ih =>
    show splitCh c (x :: (xs ++ c :: b)) = splitCh c (x :: xs) ++ splitCh c b
    by_cases hx : x = c
    · rw [splitCh_cons_eq c x (xs ++ c :: b), if_pos hx, ih,
        splitCh_cons_eq c x xs, if_pos hx]
      simp
    · rw [splitCh_cons_eq c x (xs ++ c :: b), if_neg hx, ih,
        splitCh_cons_eq c x xs, if_neg hx]
      cases h : splitCh c xs with
      | nil => exact absurd h (splitCh_ne_nil c xs)
      | cons p ps => simp

theorem mem_splitCh_not (c : Char) (s : JStr) : ∀ p ∈ splitCh c s, c ∉ p := by
  induction s with
  | nil =>
    intro p hp
    simp [splitCh] at hp
    subst hp
    simp
  | cons x xs ih =>
    intro p hp
    unfold splitCh at hp
    by_cases hx : x = c
    · rw [if_pos hx] at hp
      rcases List.mem_cons.mp hp with rfl | hp
      · simp
      · exact ih p hp
    · rw [if_neg hx] at hp
      have hcx : c ∉ [x] := by
        simp
        exact fun hc => hx hc.symm
      cases h : splitCh c xs with
      | nil => rw [h] at hp; simp at hp; subst hp; exact hcx
      | cons q qs =>
        rw [h] at hp
        rcases List.mem_cons.mp hp with rfl | hp
        · have hq : c ∉ q := ih q (by rw [h]; exact List.mem_cons_self _ _)
          simp [hq]
          exact fun hc => hx hc.symm
        · exact ih p (by rw [h]; exact List.mem_cons_of_mem _ hp)

theorem splitCh_of_not_mem (c : Char) (s : JStr) (h : c ∉ s) : splitCh c s = [s] := by
  induction s with
  | nil => rfl
  | cons x xs ih =>
    simp only [List.mem_cons, not_or] at h
    have hx : ¬ x = c := fun hc => h.1 hc.symm
    unfold splitCh
    rw [if_neg hx, ih h.2]

theorem trimmedLines_nil : trimmedLines [] = [] := rfl

theorem trimmedLines_append_lf (a b : JStr) :
    trimmedLines (a ++ '\n' :: b) = trimmedLines a ++ trimmedLines b := by
  unfold trimmedLines
  rw [splitCh_append, List.map_append, List.filter_append]

theorem jsTrim_nil : jsTrim [] = [] := rfl

theorem jsTrim_cons_ws (c : Char) (hc : isWsChar c = true) (s : JStr) :
    jsTrim (c :: s) = jsTrim s := by
  unfold jsTrim
  rw [List.dropWhile_cons_of_pos hc]

theorem trimmedLines_cons_ws (c : Char) (hc : isWsChar c = true) (s : JStr) :
    trimmedLines (c :: s) = trimmedLines s := by
  by_cases hlf : c = '\n'
  · subst hlf
    show trimmedLines ([] ++ '\n' :: s) = trimmedLines s
    rw [trimmedLines_append_lf]
    rfl
  · unfold trimmedLines
    rw [splitCh_cons_eq '\n' c s, if_neg hlf]
    cases h : splitCh '\n' s with
    | nil => exact absurd h (splitCh_ne_nil _ _)
    | cons p ps =>
      simp only [List.map_cons, jsTrim_cons_ws c hc p]

theorem trimmedLines_dropWhile (s : JStr) :
    trimmedLines (s.dropWhile isWsChar) = trimmedLines s := by
  induction s with
  | nil => rfl
  | cons x xs ih =>
    by_cases hx : isWsChar x
    · rw [List.dropWhile_cons_of_pos hx, ih, trimmedLines_cons_ws x hx]
    · rw [List.dropWhile_cons_of_neg hx]

theorem jsTrim_concat_ws (d : Char) (hd : isWsChar d = true) (s : JStr) :
    jsTrim (s ++ [d]) = jsTrim s := by
  unfold jsTrim
  rw [List.dropWhile_append]
  cases h : s.dropWhile isWsChar with
  | nil =>
    simp only [h, List.isEmpty_nil, if_pos rfl]
    rw [List.dropWhile_cons_of_pos hd]
    rfl
  | cons y ys =>
    simp only [List.isEmpty_cons, Bool.false_eq_true, if_false]
    have hrev : ((y :: ys) ++ [d]).reverse = d :: (y :: ys).reverse := by simp
    rw [hrev, List.dropWhile_cons_of_pos hd]

theorem splitCh_concat_ne (c d : Char) (hd : ¬ d = c) (s : JStr) :
    ∀ (ps : List JStr) (p : JStr), splitCh c s = ps ++ [p] →
    splitCh c (s ++ [d]) = ps ++ [p ++ [d]] := by
  induction s with
  | nil =>
    intro ps p h
    have h1 : ps ++ [p] = [[]] := by
      rw [← h]
      rfl
    cases ps with
    | nil =>
      simp at h1
      subst h1
      show splitCh c [d] = [[d]]
      rw [splitCh_cons_eq, if_neg hd]
      rfl
    | cons q qs =>
      exfalso
      have hlen := congrArg List.length h1
      simp at hlen
  | cons x xs ih =>
    intro ps p h
    show splitCh c (x :: (xs ++ [d])) = ps ++ [p ++ [d]]
    by_cases hx : x = c
    · rw [splitCh_cons_eq c x xs, if_pos hx] at h
      cases ps with
      | nil =>
        simp at h
        exfalso
        apply splitCh_ne_nil c xs
        first
        | exact h.2
        | exact h.2.symm
      | cons q qs =>
        simp at h
        rcases h with ⟨rfl, h2⟩
        rw [splitCh_cons_eq c x (xs ++ [d]), if_pos hx, ih qs p h2]
        rfl
    · rw [splitCh_cons_eq c x xs, if_neg hx] at h
      cases hxs : splitCh c xs with
      | nil => exact absurd hxs (splitCh_ne_nil c xs)
      | cons r rs =>
        rw [hxs] at h
        cases ps with
        | nil =>
          simp at h
          rcases h with ⟨rfl, hrs⟩
          subst hrs
          have hxs2 : splitCh c xs = [] ++ [r] := by rw [hxs]; rfl
          rw [splitCh_cons_eq c x (xs ++ [d]), if_neg hx, ih [] r hxs2]
          rfl
        | cons q qs =>
          simp at h
          rcases h with ⟨rfl, hrs⟩
          have hxs2 : splitCh c xs = (r :: qs) ++ [p] := by rw [hxs, hrs]; rfl
          rw [splitCh_cons_eq c x (xs ++ [d]), if_neg hx, ih (r :: qs) p hxs2]
          rfl

theorem trimmedLines_concat_ws (d : Char) (hd : isWsChar d = true) (s : JStr) :
    trimmedLines (s ++ [d]) = trimmedLines s := by
  by_cases hlf : d = '\n'
  · subst hlf
    rw [show s ++ ['\n'] = s ++ '\n' :: [] from rfl, trimmedLines_append_lf]
    simp [trimmedLines_nil]
  · rcases List.eq_nil_or_concat (splitCh '\n' s) with hnil | ⟨ps, p, hsnoc⟩
    · exact absurd hnil (splitCh_ne_nil _ _)
    · rw [List.concat_eq_append] at hsnoc
      unfold trimmedLines
      rw [splitCh_concat_ne '\n' d hlf s ps p hsnoc, hsnoc]
      rw [List.map_append, List.map_append, List.filter_append, List.filter_append]
      simp only [List.map_cons, List.map_nil]
      rw [jsTrim_concat_ws d hd p]

theorem trimmedLines_revDropWhile (r : JStr) :
    trimmedLines ((r.dropWhile isWsChar).reverse) = trimmedLines r.reverse := by
  induction r with
  | nil => rfl
  | cons x rs ih =>
    by_cases hx : isWsChar x
    · rw [List.dropWhile_cons_of_pos hx, ih]
      rw [show (x :: rs).reverse = rs.reverse ++ [x] from by simp]
      rw [trimmedLines_concat_ws x hx]
    · rw [List.dropWhile_cons_of_neg hx]

theorem trimmedLines_jsTrim (s : JStr) :
    trimmedLines (jsTrim s) = trimmedLines s := by
  unfold jsTrim
  rw [trimmedLines_revDropWhile ((s.dropWhile isWsChar).reverse)]
  rw [List.reverse_reverse]
  exact trimmedLines_dropWhile s

theorem trimmedLines_of_trim_nil (s : JStr) (h : jsTrim s = []) :
    trimmedLines s = [] := by
  rw [← trimmedLines_jsTrim, h]
  rfl

theorem trimmedLines_single (l : JStr) (h : '\n' ∉ l) :
    trimmedLines l = ([jsTrim l]).filter (fun x => decide (x ≠ [])) := by
  unfold trimmedLines
  rw [splitCh_of_not_mem '\n' l h]
  rfl

theorem dropWhile_head_false (p : Char → Bool) (s : JStr) :
    ∀ c, (s.dropWhile p).head? = some c → p c = false := by
  induction s with
  | nil => intro c h; simp at h
  | cons x xs ih =>
    intro c h
    by_cases hx : p x
    · rw [List.dropWhile_cons_of_pos hx] at h
      exact ih c h
    · rw [List.dropWhile_cons_of_neg hx] at h
      simp at h
      subst h
      simpa using hx

theorem getLast?_of_suffix {z y : JStr} (h : z <:+ y) (hz : z ≠ []) :
    z.getLast? = y.getLast? := by
  obtain ⟨t, rfl⟩ := h
  rw [List.getLast?_append]
  cases hz2 : z.getLast? with
  | none => exact absurd (List.getLast?_eq_none_iff.mp hz2) hz
  | some a => rfl

theorem jsTrim_getLast_not_ws (s : JStr) :
    ∀ c, (jsTrim s).getLast? = some c → isWsChar c = false := by
  intro c h
  unfold jsTrim at h
  rw [List.getLast?_reverse] at h
  exact dropWhile_head_false _ _ c h

theorem jsTrim_head_not_ws (s : JStr) :
    ∀ c, (jsTrim s).head? = some c → isWsChar c = false := by
  intro c h
  unfold jsTrim at h
  rw [List.head?_reverse] at h
  have hz : (List.dropWhile isWsChar ((s.dropWhile isWsChar).reverse)) ≠ [] := by
    intro hnil
    rw [hnil] at h
    simp at h
  rw [getLast?_of_suffix (List.dropWhile_suffix _) hz, List.getLast?_reverse] at h
  exact dropWhile_head_false _ _ c h

theorem jsTrim_eq_self (s : JStr)
    (hh : ∀ c, s.head? = some c → isWsChar c = false)
    (hl : ∀ c, s.getLast? = some c → isWsChar c = false) : jsTrim s = s := by
  cases s with
  | nil => rfl
  | cons x xs =>
    have hx : isWsChar x = false := hh x rfl
    unfold jsTrim
    rw [List.dropWhile_cons_of_neg (by simp [hx])]
    cases hrev : (x :: xs).reverse with
    | nil => simp at hrev
    | cons r rs =>
      have hr : isWsChar r = false := by
        apply hl r
        rw [← List.head?_reverse, hrev]
        rfl
      have h1 : List.dropWhile isWsChar (r :: rs) = r :: rs :=
        List.dropWhile_cons_of_neg (by simp [hr])
      rw [h1, ← hrev, List.reverse_reverse]

theorem jsTrim_idem (s : JStr) : jsTrim (jsTrim s) = jsTrim s :=
  jsTrim_eq_self _ (jsTrim_head_not_ws s) (jsTrim_getLast_not_ws s)

/-! ## Venue-block parsing invariants -/

theorem tlFlat_nil : tlFlat [] = [] := rfl

theorem tlFlat_append (a b : List JStr) : tlFlat (a ++ b) = tlFlat a ++ tlFlat b := by
  simp [tlFlat]

theorem tlFlat_single (s : JStr) : tlFlat [s] = trimmedLines s := by
  simp [tlFlat]

theorem trimmedLines_sep_left (b : JStr) :
    trimmedLines ('\n' :: b) = trimmedLines b := by
  rw [show ('\n' :: b) = [] ++ '\n' :: b from rfl, trimmedLines_append_lf]
  rfl

theorem trimmedLines_snoc_lf (a : JStr) :
    trimmedLines (a ++ ['\n']) = trimmedLines a := by
  rw [show a ++ ['\n'] = a ++ '\n' :: [] from rfl, trimmedLines_append_lf]
  simp [trimmedLines_nil]

theorem flatten_filter_single (f : JStr → JStr) (P : JStr → Bool) (ps : List JStr) :
    ((ps.map (fun p => ([f p]).filter P)).flatten) = (ps.map f).filter P := by
  induction ps with
  | nil => rfl
  | cons p ps ih =>
    simp only [List.map_cons, List.flatten_cons]
    rw [ih]
    by_cases h : P (f p) <;> simp [List.filter_cons, h]

theorem tlFlat_splitCh (b : JStr) : tlFlat (splitCh '\n' b) = trimmedLines b := by
  unfold tlFlat
  have hcong : (splitCh '\n' b).map trimmedLines
      = (splitCh '\n' b).map (fun p => ([jsTrim p]).filter (fun x => decide (x ≠ []))) :=
    List.map_congr_left (fun p hp => trimmedLines_single p (mem_splitCh_not '\n' b p hp))
  rw [hcong, flatten_filter_single]
  rfl

theorem trimmedLines_curstep (cur l : JStr)
    (hc : cur = [] ∨ ∃ c', cur = c' ++ ['\n']) :
    trimmedLines ((cur ++ l) ++ ['\n']) = trimmedLines cur ++ trimmedLines l := by
  rw [trimmedLines_snoc_lf]
  rcases hc with rfl | ⟨c', rfl⟩
  · simp [trimmedLines_nil]
  · rw [show (c' ++ ['\n']) ++ l = c' ++ '\n' :: l by simp, trimmedLines_append_lf,
      trimmedLines_snoc_lf]

theorem tlFlat_cons (x : JStr) (xs : List JStr) :
    tlFlat (x :: xs) = trimmedLines x ++ tlFlat xs := by
  simp [tlFlat]

theorem blockStep_tl (lines : List JStr) :
    ∀ (acc : List JStr × JStr), (acc.2 = [] ∨ ∃ c', acc.2 = c' ++ ['\n']) →
    (tlFlat ((lines.foldl blockStep acc).1) ++ trimmedLines ((lines.foldl blockStep acc).2)
      = tlFlat acc.1 ++ trimmedLines acc.2 ++ tlFlat lines)
    ∧ ((lines.foldl blockStep acc).2 = [] ∨ ∃ c', (lines.foldl blockStep acc).2 = c' ++ ['\n']) := by
  induction lines with
  | nil =>
    intro acc hacc
    exact ⟨by simp [tlFlat_nil], hacc⟩
  | cons l ls ih =>
    intro acc hacc
    simp only [List.foldl_cons]
    have hstep : (tlFlat (blockStep acc l).1 ++ trimmedLines (blockStep acc l).2
        = tlFlat acc.1 ++ trimmedLines acc.2 ++ trimmedLines l)
        ∧ ((blockStep acc l).2 = [] ∨ ∃ c', (blockStep acc l).2 = c' ++ ['\n']) := by
      unfold blockStep
      split
      · rename_i hcond
        constructor
        · show tlFlat (acc.1 ++ [jsTrim acc.2]) ++ trimmedLines (l ++ [lfCh]) = _
          rw [tlFlat_append, tlFlat_single, trimmedLines_jsTrim,
            show l ++ [lfCh] = l ++ ['\n'] from rfl, trimmedLines_snoc_lf]
        · exact Or.inr ⟨l, rfl⟩
      · constructor
        · show tlFlat acc.1 ++ trimmedLines (acc.2 ++ l ++ [lfCh]) = _
          rw [show acc.2 ++ l ++ [lfCh] = (acc.2 ++ l) ++ ['\n'] from rfl,
            trimmedLines_curstep acc.2 l hacc]
          simp [List.append_assoc]
        · exact Or.inr ⟨acc.2 ++ l, rfl⟩
    rcases ih (blockStep acc l) hstep.2 with ⟨h1, h2⟩
    refine ⟨?_, h2⟩
    rw [h1, hstep.1, tlFlat_cons]
    simp [List.append_assoc]

theorem venueBlocks_tl (text : JStr) :
    tlFlat (venueBlocksOf text) = trimmedLines (venuesContentOf text) := by
  have h := blockStep_tl (splitCh lfCh (venuesContentOf text)) ([], []) (Or.inl rfl)
  rcases h with ⟨h1, _⟩
  rw [tlFlat_nil, trimmedLines_nil, List.nil_append, List.nil_append] at h1
  rw [lfCh_eq] at h1
  rw [tlFlat_splitCh] at h1
  unfold venueBlocksOf chunkFlush
  rw [lfCh_eq]
  split
  · rename_i hne
    rw [tlFlat_append, tlFlat_single, trimmedLines_jsTrim]
    exact h1
  · rename_i he
    have hz : jsTrim ((((splitCh '\n' (venuesContentOf text))).foldl blockStep ([], [])).2) = [] := by
      simp at he
      exact he
    have hz2 := trimmedLines_of_trim_nil _ hz
    rw [hz2, List.append_nil] at h1
    exact h1

theorem venueBlocksOf_props (text : JStr) :
    ∀ b ∈ venueBlocksOf text, b ≠ [] ∧ jsTrim b = b := by
  have haux : ∀ (lines : List JStr) (acc : List JStr × JStr),
      (∀ b ∈ acc.1, b ≠ [] ∧ jsTrim b = b) →
      ∀ b ∈ (lines.foldl blockStep acc).1, b ≠ [] ∧ jsTrim b = b := by
    intro lines
    induction lines with
    | nil => intro acc hacc; exact hacc
    | cons l ls ih =>
      intro acc hacc
      simp only [List.foldl_cons]
      apply ih
      unfold blockStep
      split
      · rename_i hcond
        intro b hb
        rcases List.mem_append.mp hb with hb | hb
        · exact hacc b hb
        · simp at hb
          subst hb
          have h2 := (Bool.and_eq_true _ _).mp hcond
          refine ⟨?_, jsTrim_idem acc.2⟩
          have h3 := h2.2
          simp at h3
          exact h3
      · intro b hb
        exact hacc b hb
  unfold venueBlocksOf chunkFlush
  split
  · rename_i hne
    intro b hb
    rcases List.mem_append.mp hb with hb | hb
    · exact haux _ _ (by simp) b hb
    · simp at hb
      subst hb
      simp at hne
      exact ⟨hne, jsTrim_idem _⟩
  · intro b hb
    exact haux _ _ (by simp) b hb

theorem chunkFlush_tl (r : List JStr × JStr) :
    tlFlat (chunkFlush r) = tlFlat r.1 ++ trimmedLines r.2 := by
  unfold chunkFlush
  split
  · rw [tlFlat_append, tlFlat_single, trimmedLines_jsTrim]
  · rename_i he
    have hz : jsTrim r.2 = [] := by
      simp at he
      exact he
    rw [trimmedLines_of_trim_nil _ hz, List.append_nil]

theorem packLineFold_tl (e : Int) (lines : List JStr) :
    ∀ acc : List JStr × JStr,
    tlFlat ((lines.foldl (packStepLine e) acc).1)
        ++ trimmedLines ((lines.foldl (packStepLine e) acc).2)
      = tlFlat acc.1 ++ trimmedLines acc.2 ++ tlFlat lines := by
  induction lines with
  | nil =>
    intro acc
    simp [tlFlat_nil]
  | cons l ls ih =>
    intro acc
    simp only [List.foldl_cons]
    rw [ih]
    have hstep : tlFlat (packStepLine e acc l).1 ++ trimmedLines (packStepLine e acc l).2
        = tlFlat acc.1 ++ trimmedLines acc.2 ++ trimmedLines l := by
      unfold packStepLine
      split
      · show tlFlat acc.1
            ++ trimmedLines (acc.2 ++ (if acc.2.isEmpty then [] else [lfCh]) ++ l) = _
        cases hacc2 : acc.2 with
        | nil => simp [trimmedLines_nil]
        | cons c cs =>
          rw [show ((c :: cs) ++ (if (c :: cs).isEmpty then [] else [lfCh])) ++ l
              = (c :: cs) ++ '\n' :: l by simp [lfCh_eq],
            trimmedLines_append_lf]
          simp [List.append_assoc]
      · show tlFlat (chunkFlush acc) ++ trimmedLines l = _
        rw [chunkFlush_tl]
    rw [hstep, tlFlat_cons]
    simp [List.append_assoc]

theorem packFold_tl (e : Int) (blocks : List JStr) :
    ∀ acc : List JStr × JStr,
    tlFlat ((blocks.foldl (packStep e) acc).1)
        ++ trimmedLines ((blocks.foldl (packStep e) acc).2)
      = tlFlat acc.1 ++ trimmedLines acc.2 ++ tlFlat blocks := by
  induction blocks with
  | nil =>
    intro acc
    simp [tlFlat_nil]
  | cons b bs ih =>
    intro acc
    simp only [List.foldl_cons]
    rw [ih]
    have hstep : tlFlat (packStep e acc b).1 ++ trimmedLines (packStep e acc b).2
        = tlFlat acc.1 ++ trimmedLines acc.2 ++ trimmedLines b := by
      unfold packStep
      split
      · show tlFlat acc.1
            ++ trimmedLines (acc.2 ++ (if acc.2.isEmpty then [] else [lfCh, lfCh]) ++ b) = _
        cases hacc2 : acc.2 with
        | nil => simp [trimmedLines_nil]
        | cons c cs =>
          rw [show ((c :: cs) ++ (if (c :: cs).isEmpty then [] else [lfCh, lfCh])) ++ b
              = (c :: cs) ++ '\n' :: ('\n' :: b) by simp [lfCh_eq],
            trimmedLines_append_lf, trimmedLines_sep_left]
          simp [List.append_assoc]
      · split
        · rw [packLineFold_tl e (splitCh lfCh b) (chunkFlush acc, [])]
          show tlFlat (chunkFlush acc) ++ trimmedLines [] ++ tlFlat (splitCh lfCh b) = _
          rw [chunkFlush_tl, trimmedLines_nil, List.append_nil, lfCh_eq, tlFlat_splitCh]
        · show tlFlat (chunkFlush acc) ++ trimmedLines b = _
          rw [chunkFlush_tl]
    rw [hstep, tlFlat_cons]
    simp [List.append_assoc]

theorem threadChunks_tl (text : JStr) (m : Nat) :
    tlFlat (threadChunks text m)
      = trimmedLines (headerOf text) ++ trimmedLines (venuesContentOf text)
          ++ trimmedLines (footerOf text) := by
  unfold threadChunks
  rw [show (headerOf text
        :: chunkFlush ((venueBlocksOf text).foldl (packStep ((m : Int) - 10)) ([], []))
        ++ (if (footerOf text).isEmpty then [] else [footerOf text]))
      = [headerOf text]
        ++ chunkFlush ((venueBlocksOf text).foldl (packStep ((m : Int) - 10)) ([], []))
        ++ (if (footerOf text).isEmpty then [] else [footerOf text]) by simp]
  rw [tlFlat_append, tlFlat_append, tlFlat_single, chunkFlush_tl,
    packFold_tl ((m : Int) - 10) (venueBlocksOf text) ([], [])]
  rw [show (([], []) : List JStr × JStr).1 = ([] : List JStr) from rfl,
    show (([], []) : List JStr × JStr).2 = ([] : JStr) from rfl,
    tlFlat_nil, trimmedLines_nil, List.nil_append, List.nil_append, venueBlocks_tl]
  have hfoot : tlFlat (if (footerOf text).isEmpty then [] else [footerOf text])
      = trimmedLines (footerOf text) := by
    split
    · rename_i he
      have hz : footerOf text = [] := by
        simpa using he
      rw [hz, tlFlat_nil, trimmedLines_nil]
    · rw [tlFlat_single]
  rw [hfoot]

theorem intercalate_single (sep x : JStr) : List.intercalate sep [x] = x := by
  simp [List.intercalate]

/-- C7: for an input of the standard header/venues/footer shape, the chunk
bodies of the thread do not literally concatenate back to the input text —
the separators are dropped and the parts trimmed — but they do reconstruct
its full trimmed line content, in order; moreover the first chunk is
exactly the trimmed header block and, when the footer is non-blank, the
last chunk is exactly the trimmed footer block. -/
theorem claim7_reconstruction (text H V F : JStr) (maxChunkSize : Nat)
    (hsplit : splitSeq threadSep text = [H, V, F]) :
    tlFlat (threadChunks text maxChunkSize)
        = trimmedLines H ++ trimmedLines V ++ trimmedLines F
      ∧ (threadChunks text maxChunkSize).head? = some (jsTrim H)
      ∧ (jsTrim F ≠ [] →
          (threadChunks text maxChunkSize).getLast? = some (jsTrim F)) := by
  have hH : headerOf text = jsTrim H := by
    unfold headerOf
    rw [hsplit]
    rfl
  have hV : venuesContentOf text = V := by
    unfold venuesContentOf
    rw [hsplit]
    rfl
  have hF : footerOf text = jsTrim F := by
    unfold footerOf
    rw [hsplit]
    show jsTrim (List.intercalate threadSep [F]) = jsTrim F
    rw [intercalate_single]
  refine ⟨?_, ?_, ?_⟩
  · rw [threadChunks_tl, hH, hV, hF, trimmedLines_jsTrim, trimmedLines_jsTrim]
  · unfold threadChunks
    rw [hH]
    rfl
  · intro hFne
    unfold threadChunks
    have hfe : (footerOf text).isEmpty = false := by
      rw [hF]
      cases hc : jsTrim F with
      | nil => exact absurd hc hFne
      | cons a l => rfl
    rw [hfe, hF]
    show (headerOf text
        :: chunkFlush ((venueBlocksOf text).foldl
            (packStep ((maxChunkSize : Int) - 10)) ([], []))
        ++ [jsTrim F]).getLast? = some (jsTrim F)
    rw [show (headerOf text
        :: chunkFlush ((venueBlocksOf text).foldl
            (packStep ((maxChunkSize : Int) - 10)) ([], []))
        ++ [jsTrim F])
      = (headerOf text
        :: chunkFlush ((venueBlocksOf text).foldl
            (packStep ((maxChunkSize : Int) - 10)) ([], [])))
        ++ [jsTrim F] by simp]
    rw [List.getLast?_concat]

theorem claim7_witness :
    splitSeq threadSep tex7 = [hdr7, ven7, ftr7]
      ∧ (tlFlat (threadChunks tex7 280)
            = trimmedLines hdr7 ++ trimmedLines ven7 ++ trimmedLines ftr7
          ∧ (threadChunks tex7 280).head? = some (jsTrim hdr7)
          ∧ (jsTrim ftr7 ≠ [] →
              (threadChunks tex7 280).getLast? = some (jsTrim ftr7))) :=
  ⟨by decide, claim7_reconstruction tex7 hdr7 ven7 ftr7 280 (by decide)⟩

theorem claim7_counterexample :
    joinStr (threadChunks tex7 280) ≠ tex7 := by decide

theorem utf16Len_digitCh (n : Nat) : utf16Len (digitCh n) = 1 := by
  unfold digitCh
  have haux : ∀ m, m < 10 → utf16Len (Char.ofNat (48 + m)) = 1 := by
    intro m hm
    interval_cases m <;> decide
  exact haux (n % 10) (Nat.mod_lt _ (by omega))

theorem jsLen_natToStrAux_le (f : Nat) :
    ∀ (k n : Nat) (acc : JStr), n < 10 ^ (k + 1) →
      jsLen (natToStrAux f n acc) ≤ (k + 1) + jsLen acc := by
  induction f with
  | zero =>
    intro k n acc _
    show jsLen (digitCh n :: acc) ≤ _
    rw [jsLen_cons, utf16Len_digitCh]
    omega
  | succ f ih =>
    intro k n acc h
    show jsLen (if n < 10 then digitCh n :: acc
        else natToStrAux f (n / 10) (digitCh n :: acc)) ≤ _
    split
    · rw [jsLen_cons, utf16Len_digitCh]
      omega
    · rename_i hge
      rcases k with _ | k'
      · have h10 : (10 : Nat) ^ (0 + 1) = 10 := by norm_num
        rw [h10] at h
        omega
      · have hpow : (10 : Nat) ^ (k' + 1 + 1) = 10 * 10 ^ (k' + 1) := by ring
        have h' : n / 10 < 10 ^ (k' + 1) := Nat.div_lt_of_lt_mul (by rw [← hpow]; exact h)
        have hrec := ih k' (n / 10) (digitCh n :: acc) h'
        rw [jsLen_cons, utf16Len_digitCh] at hrec
        omega

theorem jsLen_natToStr_le (n : Nat) (h : n ≤ 999) : jsLen (natToStr n) ≤ 3 := by
  unfold natToStr
  have h3 : n < 10 ^ (2 + 1) := by
    have h1000 : (10 : Nat) ^ (2 + 1) = 1000 := by norm_num
    omega
  have := jsLen_natToStrAux_le n 2 n [] h3
  simpa using this

theorem jsLen_counterSuffix_le (i total : Nat) (hi : i ≤ 999) (ht : total ≤ 999) :
    jsLen (counterSuffix i total) ≤ 10 := by
  unfold counterSuffix
  have h1 := jsLen_natToStr_le i hi
  have h2 := jsLen_natToStr_le total ht
  simp only [jsLen_cons, jsLen_append, jsLen_nil]
  have e1 : utf16Len lfCh = 1 := by decide
  have e2 : utf16Len '(' = 1 := by decide
  have e3 : utf16Len '/' = 1 := by decide
  have e4 : utf16Len ')' = 1 := by decide
  omega

theorem enum_fst_lt_snd_mem {l : List JStr} {p : Nat × JStr} (hp : p ∈ l.enum) :
    p.1 < l.length ∧ p.2 ∈ l := by
  obtain ⟨i, c⟩ := p
  rw [List.enum_eq_zip_range] at hp
  exact ⟨List.mem_range.mp (List.of_mem_zip hp).1, (List.of_mem_zip hp).2⟩

theorem subSeg_self (x : JStr) : subSeg x x :=
  ⟨[], [], by simp⟩

theorem subSeg_of_nil {x : JStr} (h : subSeg x []) : x = [] := by
  obtain ⟨u, v, h⟩ := h
  rcases List.append_eq_nil.mp h.symm with ⟨h1, _⟩
  exact (List.append_eq_nil.mp h1).2

theorem subSeg_append_right {x a : JStr} (h : subSeg x a) (t : JStr) :
    subSeg x (a ++ t) := by
  obtain ⟨u, v, rfl⟩ := h
  exact ⟨u, v ++ t, by simp⟩

theorem subSeg_append_left {x a : JStr} (h : subSeg x a) (s : JStr) :
    subSeg x (s ++ a) := by
  obtain ⟨u, v, rfl⟩ := h
  exact ⟨s ++ u, v, by simp⟩

theorem jsTrim_append_eq_self (a m b : JStr) (hna : a ≠ []) (ha : jsTrim a = a)
    (hnb : b ≠ []) (hb : jsTrim b = b) :
    jsTrim (a ++ m ++ b) = a ++ m ++ b := by
  apply jsTrim_eq_self
  · intro c hc
    cases a with
    | nil => exact absurd rfl hna
    | cons x xs =>
      have h0 : (((x :: xs) ++ m) ++ b).head? = some x := rfl
      rw [h0] at hc
      have hxc : x = c := Option.some.inj hc
      subst hxc
      have hne := jsTrim_head_not_ws (x :: xs) x
      rw [ha] at hne
      exact hne rfl
  · intro c hc
    have hsuf : b.getLast? = ((a ++ m) ++ b).getLast? :=
      getLast?_of_suffix ⟨a ++ m, rfl⟩ hnb
    rw [← hsuf] at hc
    have hne := jsTrim_getLast_not_ws b c
    rw [hb] at hne
    exact hne hc

theorem packStep_inv (e : Int) (acc : List JStr × JStr) (b : JStr)
    (hb : (jsLen b : Int) ≤ e) (hbne : b ≠ []) (hbt : jsTrim b = b)
    (h1 : ∀ c ∈ acc.1, (jsLen c : Int) ≤ e)
    (h2 : (jsLen acc.2 : Int) ≤ e)
    (h3 : jsTrim acc.2 = acc.2) :
    (∀ c ∈ (packStep e acc b).1, (jsLen c : Int) ≤ e)
    ∧ ((jsLen (packStep e acc b).2 : Int) ≤ e)
    ∧ jsTrim (packStep e acc b).2 = (packStep e acc b).2
    ∧ (∀ x, ((∃ c ∈ acc.1, subSeg x c) ∨ subSeg x acc.2) →
        ((∃ c ∈ (packStep e acc b).1, subSeg x c) ∨ subSeg x (packStep e acc b).2))
    ∧ ((∃ c ∈ (packStep e acc b).1, subSeg b c) ∨ subSeg b (packStep e acc b).2) := by
  unfold packStep
  split
  · rename_i hfit
    refine ⟨h1, ?_, ?_, ?_, ?_⟩
    · show (jsLen (acc.2 ++ (if acc.2.isEmpty then [] else [lfCh, lfCh]) ++ b) : Int) ≤ e
      rw [jsLen_append, jsLen_append]
      have hsep : jsLen (if acc.2.isEmpty then [] else [lfCh, lfCh]) ≤ 2 := by
        split
        · simp [jsLen_nil]
        · decide
      push_cast
      omega
    · show jsTrim (acc.2 ++ (if acc.2.isEmpty then [] else [lfCh, lfCh]) ++ b) = _
      cases hacc2 : acc.2 with
      | nil => simpa using hbt
      | cons y ys =>
        rw [hacc2] at h3
        exact jsTrim_append_eq_self (y :: ys) _ b (by simp) h3 hbne hbt
    · intro x hx
      rcases hx with hx | hx
      · exact Or.inl hx
      · exact Or.inr (subSeg_append_right (subSeg_append_right hx _) _)
    · exact Or.inr (subSeg_append_left (subSeg_self b) _)
  · split
    · rename_i hnofit htoolong
      omega
    · refine ⟨?_, hb, hbt, ?_, ?_⟩
      · intro c hc
        show (jsLen c : Int) ≤ e
        unfold chunkFlush at hc
        split at hc
        · rcases List.mem_append.mp hc with hc | hc
          · exact h1 c hc
          · have hcv : c = jsTrim acc.2 := by simpa using hc
            subst hcv
            have := jsLen_jsTrim_le acc.2
            omega
        · exact h1 c hc
      · intro x hx
        rcases hx with ⟨c, hcmem, hsub⟩ | hx
        · refine Or.inl ⟨c, ?_, hsub⟩
          show c ∈ chunkFlush acc
          unfold chunkFlush
          split
          · exact List.mem_append_left _ hcmem
          · exact hcmem
        · show (∃ c ∈ chunkFlush acc, subSeg x c) ∨ subSeg x b
          unfold chunkFlush
          split
          · rename_i hne
            refine Or.inl ⟨jsTrim acc.2, List.mem_append_right _ (by simp), ?_⟩
            rw [h3]
            exact hx
          · rename_i he
            have hz : jsTrim acc.2 = [] := by
              simp at he
              exact he
            rw [h3] at hz
            rw [hz] at hx
            have hxz := subSeg_of_nil hx
            subst hxz
            exact Or.inr ⟨[], b, by simp⟩
      · exact Or.inr (subSeg_self b)

theorem packFold_inv (e : Int) (blocks : List JStr) :
    ∀ acc : List JStr × JStr,
    (∀ b ∈ blocks, (jsLen b : Int) ≤ e ∧ b ≠ [] ∧ jsTrim b = b) →
    (∀ c ∈ acc.1, (jsLen c : Int) ≤ e) →
    (jsLen acc.2 : Int) ≤ e →
    jsTrim acc.2 = acc.2 →
    (∀ c ∈ (blocks.foldl (packStep e) acc).1, (jsLen c : Int) ≤ e)
    ∧ ((jsLen (blocks.foldl (packStep e) acc).2 : Int) ≤ e)
    ∧ jsTrim (blocks.foldl (packStep e) acc).2 = (blocks.foldl (packStep e) acc).2
    ∧ (∀ x, ((∃ c ∈ acc.1, subSeg x c) ∨ subSeg x acc.2) →
        ((∃ c ∈ (blocks.foldl (packStep e) acc).1, subSeg x c)
          ∨ subSeg x (blocks.foldl (packStep e) acc).2))
    ∧ (∀ b ∈ blocks, (∃ c ∈ (blocks.foldl (packStep e) acc).1, subSeg b c)
        ∨ subSeg b (blocks.foldl (packStep e) acc).2) := by
  induction blocks with
  | nil =>
    intro acc _ h1 h2 h3
    exact ⟨h1, h2, h3, fun x hx => hx, fun b hb => absurd hb (List.not_mem_nil b)⟩
  | cons b bs ih =>
    intro acc hblk h1 h2 h3
    simp only [List.foldl_cons]
    have hbprop := hblk b (List.mem_cons_self b bs)
    have hstep := packStep_inv e acc b hbprop.1 hbprop.2.1 hbprop.2.2 h1 h2 h3
    have hrest := ih (packStep e acc b)
      (fun x hx => hblk x (List.mem_cons_of_mem b hx))
      hstep.1 hstep.2.1 hstep.2.2.1
    refine ⟨hrest.1, hrest.2.1, hrest.2.2.1, ?_, ?_⟩
    · intro x hx
      exact hrest.2.2.2.1 x (hstep.2.2.2.1 x hx)
    · intro y hy
      rcases List.mem_cons.mp hy with rfl | hy
      · exact hrest.2.2.2.1 y hstep.2.2.2.2
      · exact hrest.2.2.2.2 y hy

/-- C2: the chunker enforces no limit on the header and footer chunks and
none on the line-level fallback, so the bound does not hold for every
input; it does hold — including the counter suffix, and together with the
guarantee that every venue block lands whole inside a single chunk — as
soon as the header and footer fit in the limit minus the ten-character
counter reserve, every venue block fits in the effective limit, and there
are at most 999 chunks. -/
theorem claim2_chunk_length_bounded (text : JStr) (maxChunkSize : Nat)
    (hhead : jsLen (headerOf text) + 10 ≤ maxChunkSize)
    (hfoot : jsLen (footerOf text) + 10 ≤ maxChunkSize)
    (hblocks : ∀ b ∈ venueBlocksOf text, jsLen b + 10 ≤ maxChunkSize)
    (hcount : (threadChunks text maxChunkSize).length ≤ 999) :
    (∀ c ∈ numberedChunks text maxChunkSize, jsLen c ≤ maxChunkSize)
    ∧ (∀ b ∈ venueBlocksOf text, ∃ ch ∈ threadChunks text maxChunkSize, subSeg b ch) := by
  have hbs : ∀ b ∈ venueBlocksOf text,
      (jsLen b : Int) ≤ (maxChunkSize : Int) - 10 ∧ b ≠ [] ∧ jsTrim b = b := by
    intro b hb
    have hp := venueBlocksOf_props text b hb
    have hl := hblocks b hb
    exact ⟨by omega, hp.1, hp.2⟩
  have hfold := packFold_inv ((maxChunkSize : Int) - 10) (venueBlocksOf text) ([], []) hbs
    (by simp) (by show ((jsLen ([] : JStr) : Int)) ≤ _; rw [jsLen_nil]; omega) rfl
  set F := (venueBlocksOf text).foldl (packStep ((maxChunkSize : Int) - 10)) ([], []) with hFdef
  have hchunks : ∀ c ∈ threadChunks text maxChunkSize,
      (jsLen c : Int) ≤ (maxChunkSize : Int) - 10 := by
    intro c hc
    unfold threadChunks at hc
    rw [← hFdef] at hc
    rcases List.mem_append.mp hc with hc | hc
    · rcases List.mem_cons.mp hc with rfl | hc
      · omega
      · unfold chunkFlush at hc
        split at hc
        · rcases List.mem_append.mp hc with hc | hc
          · exact hfold.1 c hc
          · have hcv : c = jsTrim F.2 := by simpa using hc
            subst hcv
            have ht := jsLen_jsTrim_le F.2
            have h2' := hfold.2.1
            omega
        · exact hfold.1 c hc
    · split at hc
      · exact absurd hc (List.not_mem_nil c)
      · have hcv : c = footerOf text := by simpa using hc
        subst hcv
        omega
  refine ⟨?_, ?_⟩
  · intro c hc
    unfold numberedChunks at hc
    rcases List.mem_map.mp hc with ⟨p, hp, rfl⟩
    have hpm := enum_fst_lt_snd_mem hp
    have hlen := hchunks p.2 hpm.2
    have hsuffix := jsLen_counterSuffix_le (p.1 + 1)
      (threadChunks text maxChunkSize).length (by omega) hcount
    rw [jsLen_append]
    omega
  · intro b hb
    rcases hfold.2.2.2.2 b hb with ⟨c, hcm, hsub⟩ | hsub
    · refine ⟨c, ?_, hsub⟩
      show c ∈ threadChunks text maxChunkSize
      unfold threadChunks
      rw [← hFdef]
      refine List.mem_append_left _ (List.mem_cons_of_mem _ ?_)
      unfold chunkFlush
      split
      · exact List.mem_append_left _ hcm
      · exact hcm
    · have h3' := hfold.2.2.1
      cases hzc : (jsTrim F.2).isEmpty with
      | true =>
        exfalso
        have hz : jsTrim F.2 = [] := by simpa using hzc
        rw [h3'] at hz
        rw [hz] at hsub
        exact (hbs b hb).2.1 (subSeg_of_nil hsub)
      | false =>
        refine ⟨jsTrim F.2, ?_, ?_⟩
        · show jsTrim F.2 ∈ threadChunks text maxChunkSize
          unfold threadChunks
          rw [← hFdef]
          refine List.mem_append_left _ (List.mem_cons_of_mem _ ?_)
          unfold chunkFlush
          rw [hzc]
          simp
        · rw [h3']
          exact hsub

theorem claim2_witness :
    (jsLen (headerOf tex7) + 10 ≤ 280
      ∧ jsLen (footerOf tex7) + 10 ≤ 280
      ∧ (∀ b ∈ venueBlocksOf tex7, jsLen b + 10 ≤ 280)
      ∧ (threadChunks tex7 280).length ≤ 999)
    ∧ ((∀ c ∈ numberedChunks tex7 280, jsLen c ≤ 280)
      ∧ (∀ b ∈ venueBlocksOf tex7, ∃ ch ∈ threadChunks tex7 280, subSeg b ch)) :=
  ⟨by decide,
   claim2_chunk_length_bounded tex7 280 (by decide) (by decide) (by decide) (by decide)⟩

theorem claim2_counterexample :
    ∃ c ∈ numberedChunks tex2 280, 280 < jsLen c := by decide
